import Mathlib

/-!
Shallow embedding of the defect split/classify/expand pipeline of the
repository (FastAPI service for splitting building-inspection comments into
defects and classifying them).

Conventions of the embedding:
* Python strings are Lean `String` (= a `List Char` of code points, matching
  Python's code-point semantics for `len`, slicing and iteration).
* The external text-generation capability (the LLM) is a black box; it is
  modelled as an explicit function parameter (`llm`).  The batch functions
  additionally return the list of items actually submitted to the capability,
  so "no external call was made" is expressible as that list being `[]`.
* Python dict caches keyed by `sha256(text)` are modelled as association
  lists keyed by the text itself (SHA-256 is collision-free for the purposes
  of the spec, so the key function is modelled as injective).
* `re` character class `\s` is modelled by its ASCII members (the texts the
  service handles never contain the rarer Unicode whitespace code points);
  `str.lower()` / `str.upper()` are modelled on the ASCII and Cyrillic
  alphabets actually used by the program.
* The rapidfuzz floating-point scorers are abstracted as integer-valued
  scorer parameters; `process.extractOne` (select the highest-scoring
  choice, first wins on ties) is modelled concretely on top of them.
-/

set_option maxRecDepth 4000

/-- Python `\s` (regex) and `str.strip()` whitespace class, ASCII part. -/
def isPySpace (c : Char) : Bool :=
  c = ' ' || c = '\t' || c = '\n' || c = '\r' || c = '\x0b' || c = '\x0c'

/-- `str.lower()` on the alphabets used by the program (ASCII + Cyrillic). -/
def ruLowerChar (c : Char) : Char :=
  if 'A' ≤ c ∧ c ≤ 'Z' then Char.ofNat (c.toNat + 32)
  else if 'А' ≤ c ∧ c ≤ 'Я' then Char.ofNat (c.toNat + 32)
  else if c = 'Ё' then 'ё'
  else c

/-- `str.upper()` on the alphabets used by the program (ASCII + Cyrillic). -/
def ruUpperChar (c : Char) : Char :=
  if 'a' ≤ c ∧ c ≤ 'z' then Char.ofNat (c.toNat - 32)
  else if 'а' ≤ c ∧ c ≤ 'я' then Char.ofNat (c.toNat - 32)
  else if c = 'ё' then 'Ё'
  else c

/-- `str.lower()` lifted to strings. -/
def ruLower (s : String) : String :=
  String.mk (s.data.map ruLowerChar)

/-- `str.upper()` lifted to strings. -/
def ruUpper (s : String) : String :=
  String.mk (s.data.map ruUpperChar)

/-- `str.strip()` on the underlying character list. -/
def pyStripChars (l : List Char) : List Char :=
  ((l.dropWhile isPySpace).reverse.dropWhile isPySpace).reverse

/-- Python `str.strip()`. -/
def pyStrip (s : String) : String :=
  String.mk (pyStripChars s.data)

/-- Maximal leading whitespace run and the remainder (used to model greedy
`\s*` in the regexes of the program). -/
def spanWs : List Char → List Char × List Char
  | [] => ([], [])
  | c :: cs =>
    if isPySpace c then ((spanWs cs).1.cons c, (spanWs cs).2) else ([], c :: cs)

/-- Length of the maximal leading run of decimal digits (models greedy `\d{…}`
prefix matching: a `\d{1,k}` followed by a non-digit pattern matches exactly
the full digit run when that run has length between 1 and k). -/
def digitRunLen (l : List Char) : Nat :=
  (l.takeWhile (fun c => c.isDigit)).length

/-- Whether the list is nonempty and its head satisfies `p`. -/
def headIsX (p : Char → Bool) : List Char → Bool
  | [] => false
  | c :: _ => p c

/-- Remove a literal head sequence, or fail. -/
def stripHead? (pre l : List Char) : Option (List Char) :=
  if List.isPrefixOf pre l then some (l.drop pre.length) else none

/-- One alternation step of the `w1\s+w2` regexes at the current position:
the literal word `w1`, at least one whitespace character (greedy `\s+`), then
the literal word `w2`. -/
def phraseAt (w1 w2 : List Char) (l : List Char) : Bool :=
  match stripHead? w1 l with
  | none => false
  | some rest =>
    let p := spanWs rest
    (!p.1.isEmpty) && List.isPrefixOf w2 p.2

/-- `re.search` of `w1\s+w2` (substring search: try every start position). -/
def searchPhrase (w1 w2 : List Char) : List Char → Bool
  | [] => false
  | c :: cs => phraseAt w1 w2 (c :: cs) || searchPhrase w1 w2 cs

/-- Lookup in the modelled cache dict (`dict.get`). -/
def cacheGet {R : Type} : List (String × R) → String → Option R
  | [], _ => none
  | (k', v) :: rest, k => if k' = k then some v else cacheGet rest k

/-- Store into the modelled cache dict (`dict.__setitem__`; the most recent
binding shadows older ones, which is observationally dict update). -/
def cacheSet {R : Type} (cache : List (String × R)) (k : String) (v : R) :
    List (String × R) :=
  (k, v) :: cache

/-- Python `enumerate`, with an explicit start index. -/
def enumFrom {α : Type} (k : Nat) : List α → List (Nat × α)
  | [] => []
  | a :: as => (k, a) :: enumFrom (k + 1) as

/-! ### Schemas (`app/models/schemas.py`) -/

/-- `DefectItem`: single defect item from a split result. -/
structure DefectItem where
  text : String
deriving DecidableEq

/-- `SplitResult`: result of splitting a comment into defects. -/
structure SplitResult where
  defects : List DefectItem
deriving DecidableEq

/-- `ClassifyResult`: result of classifying a defect.  In the source the
`confidence` field has the pydantic default `0`; every construction site in
this embedding passes the field explicitly, mirroring whether the Python
call supplied it. -/
structure ClassifyResult where
  chosen : String
  confidence : Nat
deriving DecidableEq

namespace SplitService

/-- `SplitService._is_empty_comment`: true for falsy (empty) comments and
whenever the compiled alternation
`^\s*$|нет\s+замечаний|без\s+замечаний|замечания\s+отсутствуют`
(case-insensitive) `search`es successfully.  Without `re.MULTILINE` the
`^\s*$` branch fires exactly on all-whitespace strings, and the other three
branches are substring searches on the lowercased text. -/
def is_empty_comment (comment : String) : Bool :=
  if comment = "" then true
  else
    let l := comment.data.map ruLowerChar
    l.all isPySpace
      || searchPhrase "нет".data "замечаний".data l
      || searchPhrase "без".data "замечаний".data l
      || searchPhrase "замечания".data "отсутствуют".data l

/-- The character class `[A-ZА-ЯЁа-яё]` of the lookahead in
`_clean_defect_text` (uppercase Latin plus Cyrillic in both cases; note that
lowercase Latin is not included). -/
def gluedLetter (c : Char) : Bool :=
  ('A' ≤ c && c ≤ 'Z') || ('А' ≤ c && c ≤ 'Я') || c = 'Ё'
    || ('а' ≤ c && c ≤ 'я') || c = 'ё'

/-- `SplitService._clean_defect_text`: strip leading numbering
(`^\d{1,3}[\.\)]\s*`, else `^\d{1,3}\s+`, else `^\d{1,3}(?=[A-ZА-ЯЁа-яё])`
guarded by the remainder being longer than 5 characters), then a leading
bullet (`^[\-\*]\s+`), then surrounding whitespace. -/
def clean_defect_text (text : String) : String :=
  if text = "" then ""
  else
    let cl := pyStripChars text.data
    let L := digitRunLen cl
    let afterNum := cl.drop L
    let cl2 :=
      if (1 ≤ L && L ≤ 3) && headIsX (fun c => c = '.' || c = ')') afterNum then
        (afterNum.drop 1).dropWhile isPySpace
      else if (1 ≤ L && L ≤ 3) && headIsX isPySpace afterNum then
        afterNum.dropWhile isPySpace
      else if (1 ≤ L && L ≤ 3) && headIsX gluedLetter afterNum then
        (if 5 < afterNum.length then afterNum else cl)
      else cl
    let cl3 :=
      match cl2 with
      | [] => ([] : List Char)
      | c :: rest =>
        if (c = '-' || c = '*') && headIsX isPySpace rest then rest.dropWhile isPySpace
        else c :: rest
    String.mk (pyStripChars cl3)

/-- The room/location words of `header_pattern` in `_local_split_by_numbers`,
lowercased (the regex is case-insensitive and `\s*\d*` can match emptily, so
the pattern matches exactly the lines starting with one of these words). -/
def headerWords : List (List Char) :=
  ["окно".data, "кухня".data, "комната".data, "балкон".data, "лоджия".data,
   "санузел".data, "ванная".data, "коридор".data, "прихожая".data]

/-- `header_pattern.match(line) and len(line) < 50` of
`_local_split_by_numbers`. -/
def isHeaderLine (l : List Char) : Bool :=
  (headerWords.any fun w => List.isPrefixOf w (l.map ruLowerChar))
    && decide (l.length < 50)

/-- `number_pattern.match(line)` of `_local_split_by_numbers`:
`^(\d{1,2})([\.\)\s]|(?=[А-ЯЁа-яёA-Za-z]))`. -/
def numberLineHead (l : List Char) : Bool :=
  let L := digitRunLen l
  (decide (1 ≤ L) && decide (L ≤ 2))
    && headIsX
      (fun c => c = '.' || c = ')' || isPySpace c || gluedLetter c
        || ('a' ≤ c && c ≤ 'z')) (l.drop L)

/-- Flush the accumulated `current_defect` lines: join with spaces, clean,
keep if nonempty. -/
def flushCurrent (cur : List String) : List String :=
  match cur with
  | [] => []
  | _ :: _ =>
    let c := clean_defect_text (String.intercalate " " cur)
    if c = "" then [] else [c]

/-- The line loop of `_local_split_by_numbers`. -/
def lsLoop : List String → List String → List String → List String
  | [], cur, acc => acc ++ flushCurrent cur
  | line :: rest, cur, acc =>
    let l := pyStrip line
    if l = "" then lsLoop rest cur acc
    else if isHeaderLine l.data then lsLoop rest cur acc
    else if numberLineHead l.data then lsLoop rest [l] (acc ++ flushCurrent cur)
    else if !cur.isEmpty then lsLoop rest (cur ++ [l]) acc
    else
      let c := clean_defect_text l
      lsLoop rest [] (acc ++ if c = "" then [] else [c])

/-- `SplitService._local_split_by_numbers`. -/
def local_split_by_numbers (text : String) : List String :=
  if text = "" then []
  else lsLoop ((pyStrip text).splitOn "\n") [] []

/-- One position check for `re.search(r'\n\s*\d{1,2}X', …)`: after the
newline, greedy `\s*`, then a 1–2 digit run, then a character of class
`cls`. -/
def numCheckAfterWs (cls : Char → Bool) (cs : List Char) : Bool :=
  let r := (spanWs cs).2
  let L := digitRunLen r
  (decide (1 ≤ L) && decide (L ≤ 2)) && headIsX cls (r.drop L)

/-- `re.search` scan for a newline followed (modulo whitespace) by a numbered
line start. -/
def searchNumAfterNewline (cls : Char → Bool) : List Char → Bool
  | [] => false
  | c :: cs => (c = '\n' && numCheckAfterWs cls cs) || searchNumAfterNewline cls cs

/-- The two `re.search` probes of `_validate_split_result`:
`\n\s*\d{1,2}[\.\)\s]` and `\n\s*\d{1,2}[А-ЯЁа-яё]`. -/
def has_numbered_lines (comment : String) : Bool :=
  searchNumAfterNewline (fun c => c = '.' || c = ')' || isPySpace c) comment.data
    || searchNumAfterNewline
      (fun c => ('А' ≤ c && c ≤ 'Я') || c = 'Ё' || ('а' ≤ c && c ≤ 'я') || c = 'ё')
      comment.data

/-- Python `str.isdigit()` (ASCII digits, matching the inputs in scope). -/
def isDigitString (d : String) : Bool :=
  (!d.data.isEmpty) && d.data.all (fun c => c.isDigit)

/-- `SplitService._validate_split_result`. -/
def validate_split_result (comment : String) (defects : List String) : List String :=
  if defects = [] then
    if has_numbered_lines comment then local_split_by_numbers comment else defects
  else
    if defects.dedup.length = 1 ∧ 1 < defects.length ∧
        (local_split_by_numbers comment ≠ [] ∧
          1 < (local_split_by_numbers comment).dedup.length) then
      local_split_by_numbers comment
    else
      let valid := defects.filter fun d => decide (3 < d.length) && !isDigitString d
      if valid.length < defects.length then valid else defects

end SplitService

/-! ### The batch scaffolding shared by `split_batch` and `classify_batch`

Both services run the same two-phase loop over a pre-allocated result buffer
(`results = [None] * len(inputs)`): a first pass that settles empty inputs
and cache hits in place and collects `(index, text)` pairs still to process,
and a second pass that writes the capability-derived value of each collected
pair back into its slot and caches it.  `firstPass` is that first loop with
the service-specific "settle locally" step abstracted as `handle`. -/

/-- First pass of `split_batch` / `classify_batch`: for each `(i, text)` pair,
`handle text = some v` settles slot `i` with `v` (empty-input short circuit or
cache hit), otherwise the pair is appended to the to-process list. -/
def firstPass {R : Type} (handle : String → Option R) :
    List (Nat × String) → List (Option R) → List (Nat × String) →
      List (Option R) × List (Nat × String)
  | [], res, todo => (res, todo)
  | (i, c) :: rest, res, todo =>
    match handle c with
    | some v => firstPass handle rest (res.set i (some v)) todo
    | none => firstPass handle rest res (todo ++ [(i, c)])

namespace SplitService

/-- The local settle step of `split_batch`'s first pass: empty comments get
`[]`, then the cache is consulted. -/
def splitHandle (cache : List (String × List String)) (c : String) :
    Option (List String) :=
  if is_empty_comment c then some [] else cacheGet cache c

/-- The defect list computed for the `p`-th to-process comment in the second
loop of `split_batch`: clean and validate the `p`-th capability result, or
fall back to the local numbered-line splitter when the capability returned
fewer results. -/
def splitComputed (llmResults : List SplitResult) (p : Nat) (c : String) :
    List String :=
  match llmResults[p]? with
  | some sr => validate_split_result c (sr.defects.map fun d => clean_defect_text d.text)
  | none => local_split_by_numbers c

/-- Second loop of `split_batch`: write each computed defect list into its
original slot and store it in the cache. -/
def splitSecondPass (llmResults : List SplitResult) :
    List (Nat × String) → Nat → List (Option (List String)) →
      List (String × List String) →
      List (Option (List String)) × List (String × List String)
  | [], _, res, cache => (res, cache)
  | (oi, c) :: rest, p, res, cache =>
    let dts := splitComputed llmResults p c
    splitSecondPass llmResults rest (p + 1) (res.set oi (some dts)) (cacheSet cache c dts)

/-- `SplitService.split_batch`.  Returns the result buffer (entries are
`some defects`; `none` is the Python `None` placeholder, which the code never
leaves in place), the updated cache, and the list of comment texts submitted
to the external capability (`[]` when the capability was not called at
all). -/
def split_batch (llm : List String → List SplitResult)
    (cache : List (String × List String)) (comments : List String) :
    List (Option (List String)) × List (String × List String) × List String :=
  if comments = [] then ([], cache, [])
  else
    let fp := firstPass (splitHandle cache) (enumFrom 0 comments)
      (List.replicate comments.length none) []
    if fp.2 = [] then (fp.1, cache, [])
    else
      let texts := fp.2.map Prod.snd
      let sp := splitSecondPass (llm texts) fp.2 0 fp.1 cache
      (sp.1, sp.2, texts)

end SplitService

namespace LLMClient

/-- The dedup/filter loop of `_parse_split_response` over one result item:
strip each defect text, drop empties, drop texts already seen. -/
def dedupDefects : List String → List String → List String
  | [], _ => []
  | d :: rest, seen =>
    let t := pyStrip d
    if t ≠ "" && !seen.contains t then t :: dedupDefects rest (t :: seen)
    else dedupDefects rest seen

/-- `LLMClient._parse_split_response`, from the decoded `results` array on:
on an item-count mismatch with the submitted batch, pad with empty lists and
truncate to the batch size; then normalise each item (the upstream JSON
decoding and `_coerce_split_item` shape coercion already yield each item as a
list of defect strings). -/
def parse_split_results (results : List (List String)) (expected : Nat) :
    List SplitResult :=
  let rs :=
    if results.length ≠ expected then
      (results ++ List.replicate (expected - results.length) []).take expected
    else results
  rs.map fun item => SplitResult.mk ((dedupDefects item []).map DefectItem.mk)

/-- One decoded item of a classify response: a JSON object whose `chosen`
field may be absent (`item.get("chosen", …)`). -/
structure RespItem where
  chosen : Option String
deriving DecidableEq

/-- `LLMClient._parse_classify_response`, from the decoded `results` array
on: pad with `{"chosen": "НЕ ОПРЕДЕЛЕНО"}` / truncate to the batch size, then
build each `ClassifyResult` from the `chosen` field only (the pydantic
`confidence` default 0 applies at every construction site). -/
def parse_classify_results (results : List RespItem) (expected : Nat) :
    List ClassifyResult :=
  let rs :=
    if results.length ≠ expected then
      (results ++ List.replicate (expected - results.length)
        (RespItem.mk (some "НЕ ОПРЕДЕЛЕНО"))).take expected
    else results
  rs.map fun item => ClassifyResult.mk (item.chosen.getD "НЕ ОПРЕДЕЛЕНО") 0

end LLMClient

/-! ### Category index (`app/services/category_index.py`) -/

/-- `CategoryIndex` state: the loaded category list and the
`_index_built` flag.  `fuzzyRank` abstracts the body of `find_top_n` past the
degenerate branches (the rapidfuzz multi-scorer ensemble with float-weighted
aggregation over the loaded categories); none of the verified claims depend
on its value. -/
structure CategoryIndex where
  categories : List String
  indexBuilt : Bool
  fuzzyRank : String → Nat → List String

/-- `CategoryIndex.find_top_n`: raises if the index is not built; returns
`[]` on an empty category list; returns the first `n` categories in source
order for empty/whitespace-only text; otherwise runs the fuzzy ensemble on
`text.strip().lower()`. -/
def CategoryIndex.find_top_n (idx : CategoryIndex) (text : String) (n : Nat) :
    Except String (List String) :=
  if !idx.indexBuilt then .error "Index not built. Call build_index() first."
  else if idx.categories = [] then .ok []
  else if text = "" || pyStrip text = "" then .ok (idx.categories.take n)
  else .ok (idx.fuzzyRank (ruLower (pyStrip text)) n)

namespace ClassifyService

/-- The reserved sentinel category. -/
def UNDETERMINED : String := "НЕ ОПРЕДЕЛЕНО"

/-- The denylist `invalid_responses` of `classify_batch`. -/
def invalid_responses : List String :=
  ["другое", "прочее", "иное", "не подходит", "нет категории",
   "не найдено", "отсутствует", "none", "other", ""]

/-- `rapidfuzz.process.extractOne`: the choice with the highest score under
`scorer` (the first one on ties), or `none` for an empty choice list. -/
def extractOne (scorer : String → String → Nat) (query : String)
    (choices : List String) : Option (String × Nat) :=
  choices.foldl
    (fun acc c =>
      match acc with
      | none => some (c, scorer query c)
      | some (b, bs) => if bs < scorer query c then some (c, scorer query c) else some (b, bs))
    none

/-- The validity check of `classify_batch` on the capability's answer: the
lowered/stripped answer is on the denylist, or the answer is not one of the
candidates offered for this defect. -/
def is_invalid_answer (candidates : List String) (category : String) : Bool :=
  invalid_responses.contains (pyStrip (ruLower category))
    || !candidates.contains category

/-- The fallback block of `classify_batch` for an invalid capability answer:
the best fuzzy match among the non-sentinel candidates (token_set_ratio with
score > 30 capped at 50, else WRatio with score > 30 capped at 40, else the
first candidate at 20), or the sentinel when there is no non-sentinel
candidate. -/
def fallbackChoice (s1 s2 : String → String → Nat) (defect : String)
    (candidates : List String) : String × Nat :=
  match candidates.filter (fun c => c ≠ UNDETERMINED) with
  | [] => (UNDETERMINED, 0)
  | v :: vs =>
    match extractOne s1 defect (v :: vs) with
    | some (m, sc) =>
      if 30 < sc then (m, Nat.min sc 50)
      else
        match extractOne s2 defect (v :: vs) with
        | some (m2, sc2) => if 30 < sc2 then (m2, Nat.min sc2 40) else (v, 20)
        | none => (v, 20)
    | none =>
      match extractOne s2 defect (v :: vs) with
      | some (m2, sc2) => if 30 < sc2 then (m2, Nat.min sc2 40) else (v, 20)
      | none => (v, 20)

/-- The per-item resolution of `classify_batch` (second loop body): no
capability result for this slot gives the sentinel; an invalid answer is
replaced by `fallbackChoice`; a valid answer is returned as is. -/
def resolveOne (s1 s2 : String → String → Nat) (defect : String)
    (candidates : List String) (ro : Option ClassifyResult) : String × Nat :=
  match ro with
  | none => (UNDETERMINED, 0)
  | some r =>
    if is_invalid_answer candidates r.chosen then fallbackChoice s1 s2 defect candidates
    else (r.chosen, r.confidence)

/-- Candidate set offered to the capability for one defect: the top-N fuzzy
matches with the sentinel appended when absent. -/
def candidatesFor (idx : CategoryIndex) (topN : Nat) (defect : String) :
    Except String (List String) :=
  (idx.find_top_n defect topN).map fun cands =>
    if cands.contains UNDETERMINED then cands else cands ++ [UNDETERMINED]

/-- The candidate-building loop of `classify_batch` over the to-process
pairs (propagates the index-not-built error of `find_top_n`). -/
def buildCands (idx : CategoryIndex) (topN : Nat) :
    List (Nat × String) → Except String (List (String × List String))
  | [] => .ok []
  | (_, d) :: rest => do
    let cs ← candidatesFor idx topN d
    let more ← buildCands idx topN rest
    .ok ((d, cs) :: more)

/-- The local settle step of `classify_batch`'s first pass: blank defects get
the sentinel with confidence 0, then the cache is consulted. -/
def classifyHandle (cache : List (String × (String × Nat))) (d : String) :
    Option (String × Nat) :=
  if d = "" || pyStrip d = "" then some (UNDETERMINED, 0) else cacheGet cache d

/-- The `(category, confidence)` pair computed for the `p`-th to-process
defect in the second loop of `classify_batch` (candidates are looked up at
the same position of the submitted pair list). -/
def classifyComputed (s1 s2 : String → String → Nat)
    (pairs : List (String × List String)) (llmResults : List ClassifyResult)
    (p : Nat) (d : String) : String × Nat :=
  resolveOne s1 s2 d ((pairs[p]?).getD (d, []) |>.2) llmResults[p]?

/-- Second loop of `classify_batch`: write each resolved pair into its
original slot and store it in the cache. -/
def classifySecondPass (s1 s2 : String → String → Nat)
    (pairs : List (String × List String)) (llmResults : List ClassifyResult) :
    List (Nat × String) → Nat → List (Option (String × Nat)) →
      List (String × (String × Nat)) →
      List (Option (String × Nat)) × List (String × (String × Nat))
  | [], _, res, cache => (res, cache)
  | (oi, d) :: rest, p, res, cache =>
    let r := classifyComputed s1 s2 pairs llmResults p d
    classifySecondPass s1 s2 pairs llmResults rest (p + 1)
      (res.set oi (some r)) (cacheSet cache d r)

/-- `ClassifyService.classify_batch`.  Returns the result buffer, the updated
cache, and the `(defect, candidates)` pairs submitted to the external
capability (`[]` when the capability was not called); the only error is the
propagated index-not-built error of `find_top_n`. -/
def classify_batch (idx : CategoryIndex) (topN : Nat)
    (s1 s2 : String → String → Nat)
    (llm : List (String × List String) → List ClassifyResult)
    (cache : List (String × (String × Nat))) (defects : List String) :
    Except String
      (List (Option (String × Nat)) × List (String × (String × Nat)) ×
        List (String × List String)) :=
  if defects = [] then .ok ([], cache, [])
  else
    let fp := firstPass (classifyHandle cache) (enumFrom 0 defects)
      (List.replicate defects.length none) []
    if fp.2 = [] then .ok (fp.1, cache, [])
    else do
      let pairs ← buildCands idx topN fp.2
      let llmResults := llm pairs
      let sp := classifySecondPass s1 s2 pairs llmResults fp.2 0 fp.1 cache
      .ok (sp.1, sp.2, pairs)

end ClassifyService

/-! ### Row expansion (`app/services/expand_service.py`) -/

namespace ExpandService

/-- A spreadsheet row: an ordered mapping from column name to an optional
string value (Python dict with string-or-None values). -/
abbrev Row := List (String × Option String)

/-- `ExpandedRow` of `app/models/schemas.py` (as constructed by
`expand_rows`: `category`/`confidence` are the pydantic defaults `None`). -/
structure ExpandedRow where
  original_data : Row
  defect_text : String
  category : Option String
  confidence : Option Nat
deriving DecidableEq

/-- The stop class `[^\s,;]` of `PHOTO_URL_PATTERN`, complemented. -/
def urlStop (c : Char) : Bool :=
  isPySpace c || c = ',' || c = ';'

/-- The literal head of `PHOTO_URL_PATTERN`
(`https://uploads\.domyland\.com/`). -/
def photoUrlHead : List Char := "https://uploads.domyland.com/".data

/-- Maximal run of non-stop characters and the remainder (greedy
`[^\s,;]+`). -/
def takeUrlBody : List Char → List Char × List Char
  | [] => ([], [])
  | c :: cs =>
    if urlStop c then ([], c :: cs)
    else ((takeUrlBody cs).1.cons c, (takeUrlBody cs).2)

theorem takeUrlBody_length_le : ∀ l : List Char, (takeUrlBody l).2.length ≤ l.length := by
  intro l
  induction l with
  | nil => simp [takeUrlBody]
  | cons c cs ih =>
    simp only [takeUrlBody]
    split
    · simp
    · exact Nat.le_succ_of_le ih

theorem dropWhileP_length_le (p : Char → Bool) :
    ∀ l : List Char, (l.dropWhile p).length ≤ l.length := by
  intro l
  induction l with
  | nil => simp
  | cons c cs ih =>
    by_cases h : p c
    · simpa [List.dropWhile, h] using Nat.le_succ_of_le ih
    · simp [List.dropWhile, h]

/-- Simultaneous `findall` + `sub('')` of `PHOTO_URL_PATTERN`: collect each
maximal match (the literal head followed by at least one non-stop character)
and drop it from the text. -/
def scanPhotoUrls (l : List Char) : List (List Char) × List Char :=
  match l with
  | [] => ([], [])
  | c :: cs =>
    let rest0 := (c :: cs).drop photoUrlHead.length
    if List.isPrefixOf photoUrlHead (c :: cs) ∧ headIsX (fun d => !urlStop d) rest0 then
      let sc := scanPhotoUrls (takeUrlBody rest0).2
      ((photoUrlHead ++ (takeUrlBody rest0).1) :: sc.1, sc.2)
    else
      let sc := scanPhotoUrls cs
      (sc.1, c :: sc.2)
termination_by l.length
decreasing_by
  · have h1 : (takeUrlBody ((c :: cs).drop photoUrlHead.length)).2.length ≤
      ((c :: cs).drop photoUrlHead.length).length := takeUrlBody_length_le _
    have h3 : photoUrlHead.length = 29 := by decide
    simp only [List.length_drop, List.length_cons] at h1 ⊢
    omega
  · simp

/-- One attempt to match `\s*,\s*,\s*` at the current position (each `\s*`
greedy; the character after a whitespace run must be the comma, so the match
is deterministic).  Returns the remainder after the match. -/
def commaWsMatch (l : List Char) : Option (List Char) :=
  match (spanWs l).2 with
  | ',' :: r2 =>
    match (spanWs r2).2 with
    | ',' :: r4 => some (spanWs r4).2
    | _ => none
  | _ => none

theorem spanWs_length_le : ∀ l : List Char, (spanWs l).2.length ≤ l.length := by
  intro l
  induction l with
  | nil => simp [spanWs]
  | cons c cs ih =>
    simp only [spanWs]
    split
    · exact Nat.le_succ_of_le ih
    · simp

theorem commaWsMatch_length_lt :
    ∀ l r : List Char, commaWsMatch l = some r → r.length < l.length := by
  intro l r h
  unfold commaWsMatch at h
  have h1 : (spanWs l).2.length ≤ l.length := spanWs_length_le l
  split at h
  case _ r2 heq =>
    have h2 : (spanWs r2).2.length ≤ r2.length := spanWs_length_le r2
    split at h
    case _ r4 heq2 =>
      have h3 : (spanWs r4).2.length ≤ r4.length := spanWs_length_le r4
      simp only [Option.some.injEq] at h
      subst h
      rw [heq] at h1
      rw [heq2] at h2
      simp only [List.length_cons] at h1 h2
      omega
    case _ => exact absurd h (by simp)
  case _ => exact absurd h (by simp)

/-- `re.sub(r'\s*,\s*,\s*', ', ', …)`: leftmost non-overlapping matches,
each replaced by a comma and a space. -/
def collapseCommaRuns (l : List Char) : List Char :=
  match l with
  | [] => []
  | c :: cs =>
    match h : commaWsMatch (c :: cs) with
    | some r => ',' :: ' ' :: collapseCommaRuns r
    | none => c :: collapseCommaRuns cs
termination_by l.length
decreasing_by
  · exact commaWsMatch_length_lt _ _ h
  · simp

/-- `re.sub(r'\s+', ' ', …)`: collapse each whitespace run to one space. -/
def collapseWsRuns (l : List Char) : List Char :=
  match l with
  | [] => []
  | c :: cs =>
    if isPySpace c then ' ' :: collapseWsRuns (cs.dropWhile isPySpace)
    else c :: collapseWsRuns cs
termination_by l.length
decreasing_by
  · have := dropWhileP_length_le isPySpace cs
    simp only [List.length_cons]
    omega
  · simp

/-- `str.strip(' ,;')`. -/
def stripCommaWs (l : List Char) : List Char :=
  ((l.dropWhile fun c => c = ' ' || c = ',' || c = ';').reverse.dropWhile
    (fun c => c = ' ' || c = ',' || c = ';')).reverse

/-- `expand_service.extract_photo_urls`: pull all photo URLs out of the text,
returning the cleaned text and the URLs joined with ", ". -/
def extract_photo_urls (text : String) : String × String :=
  if text = "" then ("", "")
  else
    let sc := scanPhotoUrls text.data
    if sc.1 = [] then (text, "")
    else
      (String.mk (stripCommaWs (collapseWsRuns (collapseCommaRuns sc.2))),
        String.intercalate ", " (sc.1.map String.mk))

/-- The per-row key scan of `expand_rows` (the loop over `row.keys()`): the
last `VALUESTRING`-cased key wins and has its value split into cleaned text
and photo URLs; the last `VALUETEXT`-cased key wins and supplies the raw
comment content. -/
structure RowScan where
  value_string_key : Option String
  cleaned_value_string : Option String
  photo_urls : String
  value_text_key : Option String
  value_text_content : String
deriving DecidableEq

/-- Initial `RowScan` state (the local variables before the key loop). -/
def rowScanInit : RowScan :=
  RowScan.mk none none "" none ""

/-- The key loop of `expand_rows` over one row. -/
def scanRow : Row → RowScan → RowScan
  | [], acc => acc
  | (k, v) :: rest, acc =>
    let ku := ruUpper k
    if ku = "VALUESTRING" then
      let p := extract_photo_urls (v.getD "")
      scanRow rest (RowScan.mk (some k) (some p.1) p.2 acc.value_text_key acc.value_text_content)
    else if ku = "VALUETEXT" then
      scanRow rest (RowScan.mk acc.value_string_key acc.cleaned_value_string acc.photo_urls
        (some k) (v.getD ""))
    else scanRow rest acc

/-- Python dict assignment on the ordered row: update the existing key in
place, else append the new key at the end. -/
def dictSet (row : Row) (k : String) (v : Option String) : Row :=
  if row.any fun p => p.1 = k then
    row.map fun p => if p.1 = k then (k, v) else p
  else row ++ [(k, v)]

/-- The per-defect row construction of `expand_rows`: copy the row, replace
every `VALUETEXT`-cased column with the defect text, restore the cleaned
`valueString`, then set the defect column and the photo column. -/
def buildExpanded (row : Row) (sc : RowScan) (defect_column : String)
    (defect_text : String) : ExpandedRow :=
  let od := row.map fun p => if ruUpper p.1 = "VALUETEXT" then (p.1, some defect_text) else p
  let od :=
    match sc.value_string_key, sc.cleaned_value_string with
    | some k, some cv => if k = "" then od else dictSet od k (some cv)
    | _, _ => od
  let od := dictSet od defect_column (some defect_text)
  let od := dictSet od "Фото" (some sc.photo_urls)
  ExpandedRow.mk od defect_text none none

/-- The row loop of `expand_rows`: a row with no defects falls back to its
stripped `valueText` content as the single defect when that content is
non-blank, and is skipped otherwise; every (remaining) defect yields one
expanded row. -/
def expandGo : List (Row × List String) → String → List ExpandedRow
  | [], _ => []
  | (row, defects) :: rest, col =>
    let sc := scanRow row rowScanInit
    let defects' :=
      if defects = [] then
        if sc.value_text_content ≠ "" ∧ pyStrip sc.value_text_content ≠ "" then
          [pyStrip sc.value_text_content]
        else []
      else defects
    defects'.map (buildExpanded row sc col) ++ expandGo rest col

/-- `expand_service.expand_rows`: raises `ValueError` on a length mismatch
between rows and defect lists, else expands each row by its defects. -/
def expand_rows (rows : List Row) (defects_per_row : List (List String))
    (defect_column : String) : Except String (List ExpandedRow) :=
  if rows.length ≠ defects_per_row.length then
    .error "Mismatch: rows and defect lists have different lengths"
  else .ok (expandGo (rows.zip defects_per_row) defect_column)

end ExpandService

/-! ### Scaffolding lemmas: caches, enumeration, the two batch passes -/

theorem cacheGet_set_self {R : Type} (cache : List (String × R)) (k : String) (v : R) :
    cacheGet (cacheSet cache k v) k = some v := by
  simp [cacheGet, cacheSet]

theorem enumFrom_mem {α : Type} :
    ∀ (cs : List α) (k j : Nat) (a : α), (j, a) ∈ enumFrom k cs →
      k ≤ j ∧ j - k < cs.length ∧ cs[j - k]? = some a := by
  intro cs
  induction cs with
  | nil => intro k j a h; simp [enumFrom] at h
  | cons c cs ih =>
    intro k j a h
    simp only [enumFrom, List.mem_cons] at h
    rcases h with h | h
    · rw [Prod.mk.injEq] at h
      obtain ⟨rfl, rfl⟩ := h
      refine ⟨le_refl _, by simp, by simp⟩
    · obtain ⟨h1, h2, h3⟩ := ih (k + 1) j a h
      have hjk : j - k = (j - (k + 1)) + 1 := by omega
      refine ⟨by omega, by simp only [List.length_cons]; omega, ?_⟩
      rw [hjk, List.getElem?_cons_succ]
      exact h3

theorem enumFrom_mem_of_getElem {α : Type} :
    ∀ (cs : List α) (k i : Nat) (c : α), cs[i]? = some c → (k + i, c) ∈ enumFrom k cs := by
  intro cs
  induction cs with
  | nil => intro k i c h; simp at h
  | cons c0 cs ih =>
    intro k i c h
    cases i with
    | zero =>
      simp only [List.getElem?_cons_zero, Option.some.injEq] at h
      subst h
      simp [enumFrom]
    | succ i =>
      rw [List.getElem?_cons_succ] at h
      have := ih (k + 1) i c h
      have harith : k + (i + 1) = (k + 1) + i := by omega
      rw [harith]
      exact List.mem_cons_of_mem _ this

theorem firstPass_length {R : Type} (handle : String → Option R) :
    ∀ pairs res todo, ((firstPass handle pairs res todo).1).length = res.length := by
  intro pairs
  induction pairs with
  | nil => intro res todo; rfl
  | cons pc rest ih =>
    intro res todo
    obtain ⟨i, c⟩ := pc
    simp only [firstPass]
    cases h : handle c with
    | some v => rw [ih]; exact List.length_set res i (some v)
    | none => exact ih res _

theorem firstPass_todo {R : Type} (handle : String → Option R) :
    ∀ pairs res todo, (firstPass handle pairs res todo).2 =
      todo ++ pairs.filter (fun pc => (handle pc.2).isNone) := by
  intro pairs
  induction pairs with
  | nil => intro res todo; simp [firstPass]
  | cons pc rest ih =>
    intro res todo
    obtain ⟨i, c⟩ := pc
    simp only [firstPass, List.filter_cons]
    cases h : handle c with
    | some v => rw [ih]; simp [h]
    | none => rw [ih]; simp [h]

theorem firstPass_get_of_not_mem {R : Type} (handle : String → Option R) :
    ∀ pairs res todo i, (∀ pc ∈ pairs, pc.1 ≠ i) →
      ((firstPass handle pairs res todo).1)[i]? = res[i]? := by
  intro pairs
  induction pairs with
  | nil => intro res todo i _; rfl
  | cons pc rest ih =>
    intro res todo i hne
    obtain ⟨j, c⟩ := pc
    have hji : j ≠ i := hne (j, c) (List.mem_cons_self _ _)
    simp only [firstPass]
    cases h : handle c with
    | some v =>
      rw [ih _ _ _ (fun pc hpc => hne pc (List.mem_cons_of_mem _ hpc))]
      exact List.getElem?_set_ne hji
    | none => exact ih _ _ _ (fun pc hpc => hne pc (List.mem_cons_of_mem _ hpc))

theorem firstPass_get_enum {R : Type} (handle : String → Option R) :
    ∀ (cs : List String) (k : Nat) (res : List (Option R)) todo (i : Nat) (c : String),
      k + cs.length ≤ res.length → k ≤ i → i < k + cs.length → cs[i - k]? = some c →
      ((firstPass handle (enumFrom k cs) res todo).1)[i]? =
        (match handle c with
          | some v => some (some v)
          | none => res[i]?) := by
  intro cs
  induction cs with
  | nil => intro k res todo i c _ h1 h2 _; simp at h1 h2; omega
  | cons c0 cs ih =>
    intro k res todo i c hlen hki hik hcs
    simp only [List.length_cons] at hlen hik
    by_cases hik' : i = k
    · subst hik'
      simp only [Nat.sub_self, List.getElem?_cons_zero, Option.some.injEq] at hcs
      simp only [enumFrom, firstPass]
      rw [hcs]
      cases h : handle c with
      | some v =>
        rw [firstPass_get_of_not_mem]
        · rw [List.getElem?_set]
          simp [show i < res.length by omega]
        · intro pc hpc
          obtain ⟨j, a⟩ := pc
          have := (enumFrom_mem cs (i + 1) j a hpc).1
          omega
      | none =>
        rw [firstPass_get_of_not_mem]
        intro pc hpc
        obtain ⟨j, a⟩ := pc
        have := (enumFrom_mem cs (i + 1) j a hpc).1
        omega
    · have hki1 : k + 1 ≤ i := by omega
      have hidx : i - k = (i - (k + 1)) + 1 := by omega
      rw [hidx, List.getElem?_cons_succ] at hcs
      simp only [enumFrom, firstPass]
      cases h : handle c0 with
      | some v =>
        have hres := ih (k + 1) (res.set k (some v)) todo i c
          (by rw [List.length_set]; omega) hki1 (by omega) hcs
        rw [hres]
        cases handle c with
        | some w => rfl
        | none => exact List.getElem?_set_ne (by omega)
      | none =>
        exact ih (k + 1) res (todo ++ [(k, c0)]) i c (by omega) hki1 (by omega) hcs

namespace SplitService

theorem splitSecondPass_length (llmR : List SplitResult) :
    ∀ todo p res cache, ((splitSecondPass llmR todo p res cache).1).length = res.length := by
  intro todo
  induction todo with
  | nil => intro p res cache; rfl
  | cons pc rest ih =>
    intro p res cache
    obtain ⟨oi, c⟩ := pc
    simp only [splitSecondPass]
    rw [ih]
    exact List.length_set res oi _

theorem splitSecondPass_get_of_not_mem (llmR : List SplitResult) :
    ∀ todo p res cache i, (∀ pc ∈ todo, pc.1 ≠ i) →
      ((splitSecondPass llmR todo p res cache).1)[i]? = res[i]? := by
  intro todo
  induction todo with
  | nil => intro p res cache i _; rfl
  | cons pc rest ih =>
    intro p res cache i hne
    obtain ⟨oi, c⟩ := pc
    simp only [splitSecondPass]
    rw [ih _ _ _ _ (fun pc hpc => hne pc (List.mem_cons_of_mem _ hpc))]
    exact List.getElem?_set_ne (hne (oi, c) (List.mem_cons_self _ _))

theorem splitSecondPass_isSome (llmR : List SplitResult) :
    ∀ todo p res cache i, (∀ pc ∈ todo, pc.1 < res.length) →
      ((∃ v, res[i]? = some (some v)) ∨ (∃ c, (i, c) ∈ todo)) →
      ∃ v, ((splitSecondPass llmR todo p res cache).1)[i]? = some (some v) := by
  intro todo
  induction todo with
  | nil =>
    intro p res cache i _ hdisj
    rcases hdisj with ⟨v, hv⟩ | ⟨c, hc⟩
    · exact ⟨v, hv⟩
    · simp at hc
  | cons pc rest ih =>
    intro p res cache i hbound hdisj
    obtain ⟨oi, c0⟩ := pc
    have hoi : oi < res.length := hbound (oi, c0) (List.mem_cons_self _ _)
    simp only [splitSecondPass]
    apply ih
    · intro pc hpc
      rw [List.length_set]
      exact hbound pc (List.mem_cons_of_mem _ hpc)
    · by_cases hio : i = oi
      · subst hio
        left
        refine ⟨splitComputed llmR p c0, ?_⟩
        rw [List.getElem?_set]
        simp [hoi]
      · rcases hdisj with ⟨v, hv⟩ | ⟨c, hc⟩
        · left
          refine ⟨v, ?_⟩
          rw [List.getElem?_set_ne (fun h => hio h.symm)]
          exact hv
        · rcases List.mem_cons.mp hc with heq | hmem
          · rw [Prod.mk.injEq] at heq
            exact absurd heq.1 hio
          · exact Or.inr ⟨c, hmem⟩

/-- The result-buffer length invariant of `split_batch`. -/
theorem split_batch_length (llm : List String → List SplitResult)
    (cache : List (String × List String)) (comments : List String) :
    ((split_batch llm cache comments).1).length = comments.length := by
  by_cases h : comments = []
  · simp [split_batch, h]
  · simp only [split_batch, if_neg h]
    split
    · rw [firstPass_length]
      exact List.length_replicate _ _
    · rw [splitSecondPass_length, firstPass_length]
      exact List.length_replicate _ _

/-- Every slot of `split_batch`'s result buffer is written. -/
theorem split_batch_isSome (llm : List String → List SplitResult)
    (cache : List (String × List String)) (comments : List String) (i : Nat)
    (hi : i < comments.length) :
    ∃ v, ((split_batch llm cache comments).1)[i]? = some (some v) := by
  have hne : comments ≠ [] := by
    intro h
    rw [h] at hi
    simp at hi
  have hd : comments[i]? = some comments[i] := List.getElem?_eq_getElem hi
  have hchar := firstPass_get_enum (splitHandle cache) comments 0
    (List.replicate comments.length none) [] i comments[i]
    (by simp) (Nat.zero_le _) (by simpa using hi) (by simpa using hd)
  simp only [split_batch, if_neg hne]
  split
  case isTrue h2 =>
    cases hh : splitHandle cache comments[i] with
    | some v =>
      rw [hh] at hchar
      exact ⟨v, hchar⟩
    | none =>
      exfalso
      have hmem : (0 + i, comments[i]) ∈ enumFrom 0 comments :=
        enumFrom_mem_of_getElem _ _ _ _ hd
      have hmem2 : (0 + i, comments[i]) ∈
          (firstPass (splitHandle cache) (enumFrom 0 comments)
            (List.replicate comments.length none) []).2 := by
        rw [firstPass_todo]
        simp only [List.nil_append, List.mem_filter]
        exact ⟨hmem, by simp [hh]⟩
      rw [h2] at hmem2
      simp at hmem2
  case isFalse h2 =>
    apply splitSecondPass_isSome
    · intro pc hpc
      rw [firstPass_todo] at hpc
      simp only [List.nil_append, List.mem_filter] at hpc
      obtain ⟨j, a⟩ := pc
      have := (enumFrom_mem comments 0 j a hpc.1).2.1
      rw [firstPass_length, List.length_replicate]
      simpa using this
    · cases hh : splitHandle cache comments[i] with
      | some v =>
        rw [hh] at hchar
        exact Or.inl ⟨v, hchar⟩
      | none =>
        refine Or.inr ⟨comments[i], ?_⟩
        rw [firstPass_todo]
        simp only [List.nil_append, List.mem_filter]
        refine ⟨by simpa using enumFrom_mem_of_getElem comments 0 i comments[i] hd, by simp [hh]⟩

/-- A slot settled locally in the first pass (empty comment or cache hit)
keeps its locally settled value in `split_batch`'s result. -/
theorem split_batch_get_handled (llm : List String → List SplitResult)
    (cache : List (String × List String)) (comments : List String) (i : Nat)
    (d : String) (v : List String) (hd : comments[i]? = some d)
    (hh : splitHandle cache d = some v) :
    ((split_batch llm cache comments).1)[i]? = some (some v) := by
  have hne : comments ≠ [] := by
    intro h
    rw [h] at hd
    simp at hd
  have hi : i < comments.length := by
    rcases List.getElem?_eq_some.mp hd with ⟨h, _⟩
    exact h
  have hchar := firstPass_get_enum (splitHandle cache) comments 0
    (List.replicate comments.length none) [] i d
    (by simp) (Nat.zero_le _) (by simpa using hi) (by simpa using hd)
  rw [hh] at hchar
  simp only [split_batch, if_neg hne]
  split
  case isTrue h2 => exact hchar
  case isFalse h2 =>
    rw [splitSecondPass_get_of_not_mem]
    · exact hchar
    · intro pc hpc
      rw [firstPass_todo] at hpc
      simp only [List.nil_append, List.mem_filter] at hpc
      obtain ⟨j, a⟩ := pc
      intro hji
      subst hji
      have hget := (enumFrom_mem comments 0 j a hpc.1).2.2
      simp only [Nat.sub_zero] at hget
      rw [hd] at hget
      injection hget with had
      rw [had] at hh
      simp [hh] at hpc

/-- Every text submitted to the capability by `split_batch` was neither an
empty comment nor a cache hit. -/
theorem split_batch_sent (llm : List String → List SplitResult)
    (cache : List (String × List String)) (comments : List String) (t : String)
    (ht : t ∈ (split_batch llm cache comments).2.2) : splitHandle cache t = none := by
  by_cases hne : comments = []
  · rw [hne] at ht
    simp [split_batch] at ht
  · simp only [split_batch, if_neg hne] at ht
    rcases hsp : (firstPass (splitHandle cache) (enumFrom 0 comments)
        (List.replicate comments.length none) []).2 with _ | ⟨pc0, rest⟩
    · rw [hsp] at ht
      simp at ht
    · rw [if_neg (by rw [hsp]; simp)] at ht
      simp only [List.mem_map] at ht
      obtain ⟨pc, hpc, hpct⟩ := ht
      rw [firstPass_todo] at hpc
      simp only [List.nil_append, List.mem_filter] at hpc
      rw [← hpct]
      exact Option.not_isSome_iff_eq_none.mp (by simp [hpc.2])

end SplitService

namespace ClassifyService

theorem classifySecondPass_length (s1 s2 : String → String → Nat)
    (pairs : List (String × List String)) (llmR : List ClassifyResult) :
    ∀ todo p res cache,
      ((classifySecondPass s1 s2 pairs llmR todo p res cache).1).length = res.length := by
  intro todo
  induction todo with
  | nil => intro p res cache; rfl
  | cons pc rest ih =>
    intro p res cache
    obtain ⟨oi, d⟩ := pc
    simp only [classifySecondPass]
    rw [ih]
    exact List.length_set res oi _

theorem classifySecondPass_get_of_not_mem (s1 s2 : String → String → Nat)
    (pairs : List (String × List String)) (llmR : List ClassifyResult) :
    ∀ todo p res cache i, (∀ pc ∈ todo, pc.1 ≠ i) →
      ((classifySecondPass s1 s2 pairs llmR todo p res cache).1)[i]? = res[i]? := by
  intro todo
  induction todo with
  | nil => intro p res cache i _; rfl
  | cons pc rest ih =>
    intro p res cache i hne
    obtain ⟨oi, d⟩ := pc
    simp only [classifySecondPass]
    rw [ih _ _ _ _ (fun pc hpc => hne pc (List.mem_cons_of_mem _ hpc))]
    exact List.getElem?_set_ne (hne (oi, d) (List.mem_cons_self _ _))

theorem classifySecondPass_isSome (s1 s2 : String → String → Nat)
    (pairs : List (String × List String)) (llmR : List ClassifyResult) :
    ∀ todo p res cache i, (∀ pc ∈ todo, pc.1 < res.length) →
      ((∃ v, res[i]? = some (some v)) ∨ (∃ d, (i, d) ∈ todo)) →
      ∃ v, ((classifySecondPass s1 s2 pairs llmR todo p res cache).1)[i]? = some (some v) := by
  intro todo
  induction todo with
  | nil =>
    intro p res cache i _ hdisj
    rcases hdisj with ⟨v, hv⟩ | ⟨d, hd⟩
    · exact ⟨v, hv⟩
    · simp at hd
  | cons pc rest ih =>
    intro p res cache i hbound hdisj
    obtain ⟨oi, d0⟩ := pc
    have hoi : oi < res.length := hbound (oi, d0) (List.mem_cons_self _ _)
    simp only [classifySecondPass]
    apply ih
    · intro pc hpc
      rw [List.length_set]
      exact hbound pc (List.mem_cons_of_mem _ hpc)
    · by_cases hio : i = oi
      · subst hio
        left
        refine ⟨classifyComputed s1 s2 pairs llmR p d0, ?_⟩
        rw [List.getElem?_set]
        simp [hoi]
      · rcases hdisj with ⟨v, hv⟩ | ⟨d, hd⟩
        · left
          refine ⟨v, ?_⟩
          rw [List.getElem?_set_ne (fun h => hio h.symm)]
          exact hv
        · rcases List.mem_cons.mp hd with heq | hmem
          · rw [Prod.mk.injEq] at heq
            exact absurd heq.1 hio
          · exact Or.inr ⟨d, hmem⟩

/-- Slot-soundness of the second classify loop: every filled slot either was
already filled with a `P`-good value or receives the computed value of its
to-process pair. -/
theorem classifySecondPass_sound (s1 s2 : String → String → Nat)
    (pairs : List (String × List String)) (llmR : List ClassifyResult)
    (P : Nat → String × Nat → Prop) :
    ∀ todo p res cache,
      (∀ i v, res[i]? = some (some v) → P i v) →
      (∀ q j d, todo[q]? = some (j, d) →
        P j (classifyComputed s1 s2 pairs llmR (p + q) d)) →
      ∀ i v, ((classifySecondPass s1 s2 pairs llmR todo p res cache).1)[i]? =
        some (some v) → P i v := by
  intro todo
  induction todo with
  | nil => intro p res cache hres _ i v h; exact hres i v h
  | cons pc rest ih =>
    intro p res cache hres hcomp i v h
    obtain ⟨oi, d0⟩ := pc
    simp only [classifySecondPass] at h
    refine ih (p + 1) _ _ ?_ ?_ i v h
    · intro i' v' h'
      rw [List.getElem?_set] at h'
      by_cases hio : oi = i'
      · subst hio
        rw [if_pos rfl] at h'
        by_cases hlt : oi < res.length
        · rw [if_pos hlt] at h'
          injection h' with h''
          injection h'' with h'''
          have := hcomp 0 oi d0 (by simp)
          rw [← h''']
          simpa using this
        · rw [if_neg hlt] at h'
          exact absurd h' (by simp)
      · rw [if_neg hio] at h'
        exact hres i' v' h'
    · intro q j d hq
      have := hcomp (q + 1) j d (by simpa using hq)
      have harith : p + (q + 1) = (p + 1) + q := by omega
      rw [harith] at this
      exact this

/-- Alignment of `buildCands` output with its input: the candidate pair at
each position is the candidate set of the defect at that position. -/
theorem buildCands_align (idx : CategoryIndex) (topN : Nat) :
    ∀ (todo : List (Nat × String)) (pairs : List (String × List String)),
      buildCands idx topN todo = .ok pairs →
      ∀ (q j : Nat) (d : String), todo[q]? = some (j, d) →
        ∃ cs, candidatesFor idx topN d = .ok cs ∧ pairs[q]? = some (d, cs) := by
  intro todo
  induction todo with
  | nil =>
    intro pairs h q j d hq
    simp at hq
  | cons pc rest ih =>
    intro pairs h q j d hq
    obtain ⟨j0, d0⟩ := pc
    simp only [buildCands, bind, Except.bind] at h
    cases hc : candidatesFor idx topN d0 with
    | error e => rw [hc] at h; exact absurd h (by simp)
    | ok cs0 =>
      rw [hc] at h
      cases hb : buildCands idx topN rest with
      | error e => rw [hb] at h; exact absurd h (by simp)
      | ok more =>
        rw [hb] at h
        simp only [Except.ok.injEq] at h
        subst h
        cases q with
        | zero =>
          simp only [List.getElem?_cons_zero, Option.some.injEq] at hq
          rw [Prod.mk.injEq] at hq
          obtain ⟨rfl, rfl⟩ := hq
          exact ⟨cs0, hc, by simp⟩
        | succ q =>
          rw [List.getElem?_cons_succ] at hq
          obtain ⟨cs, hcs, hp⟩ := ih more hb q j d hq
          refine ⟨cs, hcs, ?_⟩
          rw [List.getElem?_cons_succ]
          exact hp

/-- `extractOne` only ever returns one of its choices. -/
theorem extractOne_aux (scorer : String → String → Nat) (q : String)
    (S : List String) :
    ∀ (choices : List String) (acc : Option (String × Nat)),
      (∀ b s, acc = some (b, s) → b ∈ S) → (∀ c ∈ choices, c ∈ S) →
      ∀ b s,
        choices.foldl
          (fun acc c =>
            match acc with
            | none => some (c, scorer q c)
            | some (b, bs) =>
              if bs < scorer q c then some (c, scorer q c) else some (b, bs))
          acc = some (b, s) → b ∈ S := by
  intro choices
  induction choices with
  | nil => intro acc hacc _ b s h; exact hacc b s h
  | cons c cs ih =>
    intro acc hacc hch b s h
    rw [List.foldl_cons] at h
    refine ih _ ?_ (fun c' hc' => hch c' (List.mem_cons_of_mem _ hc')) b s h
    intro b' s' hb'
    cases acc with
    | none =>
      simp only [Option.some.injEq] at hb'
      rw [Prod.mk.injEq] at hb'
      rw [← hb'.1]
      exact hch c (List.mem_cons_self _ _)
    | some p =>
      obtain ⟨b0, s0⟩ := p
      simp only at hb'
      split at hb'
      · simp only [Option.some.injEq] at hb'
        rw [Prod.mk.injEq] at hb'
        rw [← hb'.1]
        exact hch c (List.mem_cons_self _ _)
      · simp only [Option.some.injEq] at hb'
        rw [Prod.mk.injEq] at hb'
        rw [← hb'.1]
        exact hacc b0 s0 rfl

theorem extractOne_mem (scorer : String → String → Nat) (q : String)
    (choices : List String) (b : String) (s : Nat)
    (h : extractOne scorer q choices = some (b, s)) : b ∈ choices := by
  exact extractOne_aux scorer q choices choices none (by simp) (fun c hc => hc) b s h

/-- The fallback choice is the sentinel or one of the offered candidates. -/
theorem fallbackChoice_mem (s1 s2 : String → String → Nat) (defect : String)
    (cands : List String) :
    (fallbackChoice s1 s2 defect cands).1 = UNDETERMINED ∨
      (fallbackChoice s1 s2 defect cands).1 ∈ cands := by
  unfold fallbackChoice
  split
  · exact Or.inl rfl
  · rename_i v vs hf
    have hv : v ∈ cands := by
      have : v ∈ cands.filter (fun c => c ≠ UNDETERMINED) := by
        rw [hf]
        exact List.mem_cons_self _ _
      exact (List.mem_filter.mp this).1
    have hsub : ∀ m ∈ v :: vs, m ∈ cands := by
      intro m hm
      rw [← hf] at hm
      exact (List.mem_filter.mp hm).1
    split
    · rename_i m sc h1
      split
      · exact Or.inr (hsub m (extractOne_mem s1 defect _ _ _ h1))
      · split
        · rename_i m2 sc2 h2
          split
          · exact Or.inr (hsub m2 (extractOne_mem s2 defect _ _ _ h2))
          · exact Or.inr hv
        · exact Or.inr hv
    · rename_i h1
      split
      · rename_i m2 sc2 h2
        split
        · exact Or.inr (hsub m2 (extractOne_mem s2 defect _ _ _ h2))
        · exact Or.inr hv
      · exact Or.inr hv

/-- The resolved category is the sentinel or one of the offered candidates,
whatever the capability answered. -/
theorem resolveOne_mem (s1 s2 : String → String → Nat) (defect : String)
    (cands : List String) (ro : Option ClassifyResult) :
    (resolveOne s1 s2 defect cands ro).1 = UNDETERMINED ∨
      (resolveOne s1 s2 defect cands ro).1 ∈ cands := by
  cases ro with
  | none => exact Or.inl rfl
  | some r =>
    by_cases hinv : is_invalid_answer cands r.chosen
    · have hres : resolveOne s1 s2 defect cands (some r) =
          fallbackChoice s1 s2 defect cands := by
        simp only [resolveOne, if_pos hinv]
      rw [hres]
      exact fallbackChoice_mem s1 s2 defect cands
    · have hres : resolveOne s1 s2 defect cands (some r) = (r.chosen, r.confidence) := by
        simp only [resolveOne, if_neg hinv]
      rw [hres]
      right
      simp only [Bool.not_eq_true] at hinv
      simp only [is_invalid_answer, Bool.or_eq_false_iff] at hinv
      have h2 := hinv.2
      simp only [Bool.not_eq_false] at h2
      simpa using h2

/-- An invalid capability answer never influences the resolved pair: any two
invalid answers resolve identically (the fallback depends only on the defect,
the candidates and the scorers). -/
theorem resolveOne_invalid_indep (s1 s2 : String → String → Nat)
    (defect : String) (cands : List String) (r r' : ClassifyResult)
    (h : is_invalid_answer cands r.chosen = true)
    (h' : is_invalid_answer cands r'.chosen = true) :
    resolveOne s1 s2 defect cands (some r) = resolveOne s1 s2 defect cands (some r') := by
  simp only [resolveOne, if_pos h, if_pos h']

end ClassifyService

namespace ClassifyService

/-- The category constraint for one defect: the reserved sentinel, or a
member of the candidate set offered to the capability for that defect. -/
def AllowedCat (idx : CategoryIndex) (topN : Nat) (d : String) (cat : String) : Prop :=
  cat = UNDETERMINED ∨ ∃ cs, candidatesFor idx topN d = .ok cs ∧ cat ∈ cs

theorem classify_batch_length (idx : CategoryIndex) (topN : Nat)
    (s1 s2 : String → String → Nat)
    (llm : List (String × List String) → List ClassifyResult)
    (cache : List (String × (String × Nat))) (defects : List String)
    (out : List (Option (String × Nat)) × List (String × (String × Nat)) ×
      List (String × List String))
    (hok : classify_batch idx topN s1 s2 llm cache defects = .ok out) :
    out.1.length = defects.length := by
  by_cases h : defects = []
  · subst h
    have hred : classify_batch idx topN s1 s2 llm cache [] =
        Except.ok ([], cache, []) := rfl
    rw [hred] at hok
    simp only [Except.ok.injEq] at hok
    subst hok
    rfl
  · simp only [classify_batch, if_neg h] at hok
    set fp := firstPass (classifyHandle cache) (enumFrom 0 defects)
      (List.replicate defects.length none) [] with hfp
    by_cases h2 : fp.2 = []
    · rw [if_pos h2] at hok
      simp only [Except.ok.injEq] at hok
      subst hok
      rw [hfp, firstPass_length]
      exact List.length_replicate _ _
    · rw [if_neg h2] at hok
      simp only [bind, Except.bind] at hok
      cases hbc : buildCands idx topN fp.2 with
      | error e => rw [hbc] at hok; exact absurd hok (by simp)
      | ok pairs =>
        rw [hbc] at hok
        simp only [Except.ok.injEq] at hok
        subst hok
        rw [classifySecondPass_length, hfp, firstPass_length]
        exact List.length_replicate _ _

theorem classify_batch_isSome (idx : CategoryIndex) (topN : Nat)
    (s1 s2 : String → String → Nat)
    (llm : List (String × List String) → List ClassifyResult)
    (cache : List (String × (String × Nat))) (defects : List String)
    (out : List (Option (String × Nat)) × List (String × (String × Nat)) ×
      List (String × List String))
    (hok : classify_batch idx topN s1 s2 llm cache defects = .ok out)
    (i : Nat) (hi : i < defects.length) : ∃ v, out.1[i]? = some (some v) := by
  have h : defects ≠ [] := by
    intro h
    rw [h] at hi
    simp at hi
  have hd : defects[i]? = some defects[i] := List.getElem?_eq_getElem hi
  have hchar := firstPass_get_enum (classifyHandle cache) defects 0
    (List.replicate defects.length none) [] i defects[i] (by simp) (Nat.zero_le _)
    (by simpa using hi) (by simpa using hd)
  simp only [classify_batch, if_neg h] at hok
  set fp := firstPass (classifyHandle cache) (enumFrom 0 defects)
    (List.replicate defects.length none) [] with hfp
  by_cases h2 : fp.2 = []
  · rw [if_pos h2] at hok
    simp only [Except.ok.injEq] at hok
    subst hok
    cases hh : classifyHandle cache defects[i] with
    | some v =>
      rw [hh] at hchar
      exact ⟨v, hchar⟩
    | none =>
      exfalso
      have hmem : (0 + i, defects[i]) ∈ enumFrom 0 defects :=
        enumFrom_mem_of_getElem _ _ _ _ hd
      have hmem2 : (0 + i, defects[i]) ∈ fp.2 := by
        rw [hfp, firstPass_todo]
        simp only [List.nil_append, List.mem_filter]
        exact ⟨hmem, by simp [hh]⟩
      rw [h2] at hmem2
      simp at hmem2
  · rw [if_neg h2] at hok
    simp only [bind, Except.bind] at hok
    cases hbc : buildCands idx topN fp.2 with
    | error e => rw [hbc] at hok; exact absurd hok (by simp)
    | ok pairs =>
      rw [hbc] at hok
      simp only [Except.ok.injEq] at hok
      subst hok
      apply classifySecondPass_isSome
      · intro pc hpc
        rw [hfp, firstPass_todo] at hpc
        simp only [List.nil_append, List.mem_filter] at hpc
        obtain ⟨j, a⟩ := pc
        have := (enumFrom_mem defects 0 j a hpc.1).2.1
        rw [hfp, firstPass_length, List.length_replicate]
        simpa using this
      · cases hh : classifyHandle cache defects[i] with
        | some v =>
          rw [hh] at hchar
          exact Or.inl ⟨v, hchar⟩
        | none =>
          refine Or.inr ⟨defects[i], ?_⟩
          rw [hfp, firstPass_todo]
          simp only [List.nil_append, List.mem_filter]
          exact ⟨by simpa using enumFrom_mem_of_getElem defects 0 i defects[i] hd,
            by simp [hh]⟩

/-- Soundness of `classify_batch`: starting from a cache whose values satisfy
the candidate constraint, every filled result slot satisfies it for its own
defect. -/
theorem classify_batch_sound (idx : CategoryIndex) (topN : Nat)
    (s1 s2 : String → String → Nat)
    (llm : List (String × List String) → List ClassifyResult)
    (cache : List (String × (String × Nat))) (defects : List String)
    (out : List (Option (String × Nat)) × List (String × (String × Nat)) ×
      List (String × List String))
    (hcache : ∀ d v, cacheGet cache d = some v → AllowedCat idx topN d v.1)
    (hok : classify_batch idx topN s1 s2 llm cache defects = .ok out) :
    ∀ (i : Nat) (d : String) (v : String × Nat), defects[i]? = some d →
      out.1[i]? = some (some v) → AllowedCat idx topN d v.1 := by
  by_cases h : defects = []
  · subst h
    have hred : classify_batch idx topN s1 s2 llm cache [] =
        Except.ok ([], cache, []) := rfl
    rw [hred] at hok
    simp only [Except.ok.injEq] at hok
    subst hok
    intro i d v hd _
    simp at hd
  · simp only [classify_batch, if_neg h] at hok
    set fp := firstPass (classifyHandle cache) (enumFrom 0 defects)
      (List.replicate defects.length none) [] with hfp
    have hfirst : ∀ (i : Nat) (d : String) (v : String × Nat), defects[i]? = some d →
        fp.1[i]? = some (some v) → AllowedCat idx topN d v.1 := by
      intro i d v hd hslot
      have hi : i < defects.length := (List.getElem?_eq_some.mp hd).1
      have hchar := firstPass_get_enum (classifyHandle cache) defects 0
        (List.replicate defects.length none) [] i d (by simp) (Nat.zero_le _)
        (by simpa using hi) (by simpa using hd)
      rw [← hfp] at hchar
      rw [hchar] at hslot
      cases hh : classifyHandle cache d with
      | some v' =>
        rw [hh] at hslot
        simp only [Option.some.injEq] at hslot
        subst hslot
        unfold classifyHandle at hh
        split at hh
        · injection hh with hh'
          rw [← hh']
          exact Or.inl rfl
        · exact hcache d v' hh
      | none =>
        rw [hh] at hslot
        have hslot2 : (List.replicate defects.length
            (none : Option (String × Nat)))[i]? = some (some v) := hslot
        rw [List.getElem?_replicate] at hslot2
        split at hslot2 <;> simp at hslot2
    by_cases h2 : fp.2 = []
    · rw [if_pos h2] at hok
      simp only [Except.ok.injEq] at hok
      subst hok
      intro i d v hd hv
      exact hfirst i d v hd hv
    · rw [if_neg h2] at hok
      simp only [bind, Except.bind] at hok
      cases hbc : buildCands idx topN fp.2 with
      | error e => rw [hbc] at hok; exact absurd hok (by simp)
      | ok pairs =>
        rw [hbc] at hok
        simp only [Except.ok.injEq] at hok
        subst hok
        intro i d v hd hv
        refine classifySecondPass_sound s1 s2 pairs (llm pairs)
          (fun i v => ∀ d, defects[i]? = some d → AllowedCat idx topN d v.1)
          fp.2 0 fp.1 cache ?_ ?_ i v hv d hd
        · intro i' v' hslot d' hd'
          exact hfirst i' d' v' hd' hslot
        · intro q j d0 hq d' hd'
          have hmem : (j, d0) ∈ fp.2 := List.getElem?_mem hq
          have hmem2 : (j, d0) ∈ enumFrom 0 defects := by
            rw [hfp, firstPass_todo] at hmem
            simp only [List.nil_append, List.mem_filter] at hmem
            exact hmem.1
          have hd0 := (enumFrom_mem defects 0 j d0 hmem2).2.2
          simp only [Nat.sub_zero] at hd0
          rw [hd'] at hd0
          injection hd0 with hdd
          rw [hdd]
          obtain ⟨cs, hcs, hp⟩ := buildCands_align idx topN fp.2 pairs hbc q j d0 hq
          unfold classifyComputed
          simp only [Nat.zero_add]
          rw [hp]
          simp only [Option.getD_some]
          rcases resolveOne_mem s1 s2 d0 cs ((llm pairs)[q]?) with hm | hm
          · exact Or.inl hm
          · exact Or.inr ⟨cs, hcs, hm⟩

end ClassifyService

namespace LLMClient

theorem parse_split_results_length (raw : List (List String)) (n : Nat) :
    (parse_split_results raw n).length = n := by
  simp only [parse_split_results]
  split
  · rename_i hne
    simp only [List.length_map, List.length_take, List.length_append,
      List.length_replicate]
    omega
  · rename_i hne
    simp only [ne_eq, Decidable.not_not] at hne
    simp [hne]

theorem parse_split_results_pad (raw : List (List String)) (n i : Nat)
    (h1 : raw.length ≤ i) (h2 : i < n) :
    (parse_split_results raw n)[i]? = some (SplitResult.mk []) := by
  simp only [parse_split_results]
  have hne : raw.length ≠ n := by omega
  rw [if_pos hne, List.getElem?_map, List.getElem?_take, if_pos h2,
    List.getElem?_append_right h1, List.getElem?_replicate, if_pos (by omega)]
  rfl

theorem parse_split_results_align (raw : List (List String)) (n i : Nat)
    (item : List String) (h2 : i < n) (hi : raw[i]? = some item) :
    (parse_split_results raw n)[i]? =
      some (SplitResult.mk ((dedupDefects item []).map DefectItem.mk)) := by
  have hilt : i < raw.length := (List.getElem?_eq_some.mp hi).1
  simp only [parse_split_results]
  split
  · rw [List.getElem?_map, List.getElem?_take, if_pos h2,
      List.getElem?_append, if_pos hilt, hi]
    rfl
  · rw [List.getElem?_map, hi]
    rfl

theorem parse_classify_results_length (raw : List RespItem) (n : Nat) :
    (parse_classify_results raw n).length = n := by
  simp only [parse_classify_results]
  split
  · rename_i hne
    simp only [List.length_map, List.length_take, List.length_append,
      List.length_replicate]
    omega
  · rename_i hne
    simp only [ne_eq, Decidable.not_not] at hne
    simp [hne]

theorem parse_classify_results_pad (raw : List RespItem) (n i : Nat)
    (h1 : raw.length ≤ i) (h2 : i < n) :
    (parse_classify_results raw n)[i]? =
      some (ClassifyResult.mk "НЕ ОПРЕДЕЛЕНО" 0) := by
  simp only [parse_classify_results]
  have hne : raw.length ≠ n := by omega
  rw [if_pos hne, List.getElem?_map, List.getElem?_take, if_pos h2,
    List.getElem?_append_right h1, List.getElem?_replicate, if_pos (by omega)]
  rfl

theorem parse_classify_results_align (raw : List RespItem) (n i : Nat)
    (item : RespItem) (h2 : i < n) (hi : raw[i]? = some item) :
    (parse_classify_results raw n)[i]? =
      some (ClassifyResult.mk (item.chosen.getD "НЕ ОПРЕДЕЛЕНО") 0) := by
  have hilt : i < raw.length := (List.getElem?_eq_some.mp hi).1
  simp only [parse_classify_results]
  split
  · rw [List.getElem?_map, List.getElem?_take, if_pos h2,
      List.getElem?_append, if_pos hilt, hi]
    rfl
  · rw [List.getElem?_map, hi]
    rfl

theorem parse_classify_results_confidence (raw : List RespItem) (n : Nat)
    (r : ClassifyResult) (h : r ∈ parse_classify_results raw n) :
    r.confidence = 0 := by
  simp only [parse_classify_results, List.mem_map] at h
  obtain ⟨item, _, rfl⟩ := h
  rfl

end LLMClient

namespace ExpandService

/-- The number of output rows contributed by one `(row, defects)` pair of
`expand_rows`: the defect count when nonzero, else one row exactly when the
row's (last) `valueText` content is non-blank. -/
def expandContribution (p : Row × List String) : Nat :=
  if p.2 = [] then
    (if (scanRow p.1 rowScanInit).value_text_content ≠ "" ∧
        pyStrip (scanRow p.1 rowScanInit).value_text_content ≠ "" then 1 else 0)
  else p.2.length

theorem expandGo_length :
    ∀ (ps : List (Row × List String)) (col : String),
      (expandGo ps col).length = (ps.map expandContribution).sum := by
  intro ps
  induction ps with
  | nil => intro col; simp [expandGo]
  | cons p rest ih =>
    intro col
    obtain ⟨row, defects⟩ := p
    simp only [expandGo, List.length_append, List.length_map, List.map_cons,
      List.sum_cons, ih]
    congr 1
    simp only [expandContribution]
    split_ifs <;> simp_all

end ExpandService

/-- The empty/blank-text degenerate branch of `find_top_n`. -/
theorem find_top_n_blank (idx : CategoryIndex) (text : String) (n : Nat)
    (hbuilt : idx.indexBuilt = true) (hblank : text = "" ∨ pyStrip text = "")
    (hn : n ≤ idx.categories.length) :
    idx.find_top_n text n = .ok (idx.categories.take n) ∧
      (idx.categories.take n).length = n := by
  constructor
  · simp only [CategoryIndex.find_top_n, hbuilt, Bool.not_true, Bool.false_eq_true,
      if_false]
    by_cases hc : idx.categories = []
    · rw [if_pos hc, hc]
      simp
    · rw [if_neg hc, if_pos (by rcases hblank with h | h <;> simp [h])]
  · rw [List.length_take]
    omega

/-! ### Character-class facts for the numbering-cleanup proofs -/

theorem char_ne_of_toNat_lt {c d : Char} (h : d.toNat < c.toNat) : c ≠ d := by
  intro he
  rw [he] at h
  omega

theorem char_toNat_le_of_le {a b : Char} (h : a ≤ b) : a.toNat ≤ b.toNat := h

theorem isDigit_toNat {c : Char} (h : c.isDigit = true) :
    48 ≤ c.toNat ∧ c.toNat ≤ 57 := by
  simp only [Char.isDigit, ge_iff_le, Bool.and_eq_true, decide_eq_true_eq] at h
  exact ⟨h.1, h.2⟩

theorem isDigit_eq_false_of_ge {c : Char} (h : 58 ≤ c.toNat) : c.isDigit = false := by
  cases hd : c.isDigit with
  | false => rfl
  | true =>
    have := isDigit_toNat hd
    omega

theorem isPySpace_eq_false_of_ge {c : Char} (h : 33 ≤ c.toNat) : isPySpace c = false := by
  have hne : ∀ d : Char, d.toNat < 33 → c ≠ d := by
    intro d hd he
    rw [he] at h
    omega
  simp [isPySpace, hne ' ' (by decide), hne '\t' (by decide), hne '\n' (by decide),
    hne '\r' (by decide), hne '\x0b' (by decide), hne '\x0c' (by decide)]

namespace SplitService

theorem gluedLetter_toNat_ge {c : Char} (h : gluedLetter c = true) : 65 ≤ c.toNat := by
  simp only [gluedLetter, Bool.or_eq_true, Bool.and_eq_true, decide_eq_true_eq] at h
  have hA : ('A' : Char).toNat = 65 := by decide
  have hCA : ('А' : Char).toNat = 1040 := by decide
  have hca : ('а' : Char).toNat = 1072 := by decide
  rcases h with (((⟨h1, _⟩ | ⟨h1, _⟩) | h1) | ⟨h1, _⟩) | h1
  · have := char_toNat_le_of_le h1
    omega
  · have := char_toNat_le_of_le h1
    omega
  · rw [h1]
    decide
  · have := char_toNat_le_of_le h1
    omega
  · rw [h1]
    decide

theorem gluedLetter_not_digit {c : Char} (h : gluedLetter c = true) :
    c.isDigit = false :=
  isDigit_eq_false_of_ge (by have := gluedLetter_toNat_ge h; omega)

theorem gluedLetter_not_ws {c : Char} (h : gluedLetter c = true) :
    isPySpace c = false :=
  isPySpace_eq_false_of_ge (by have := gluedLetter_toNat_ge h; omega)

theorem gluedLetter_ne_special {c : Char} (h : gluedLetter c = true) :
    c ≠ '.' ∧ c ≠ ')' ∧ c ≠ '-' ∧ c ≠ '*' := by
  have hge := gluedLetter_toNat_ge h
  exact ⟨char_ne_of_toNat_lt (by simp only [show ('.' : Char).toNat = 46 from by decide]; omega),
    char_ne_of_toNat_lt (by simp only [show (')' : Char).toNat = 41 from by decide]; omega),
    char_ne_of_toNat_lt (by simp only [show ('-' : Char).toNat = 45 from by decide]; omega),
    char_ne_of_toNat_lt (by simp only [show ('*' : Char).toNat = 42 from by decide]; omega)⟩

theorem digit_not_ws {c : Char} (h : c.isDigit = true) : isPySpace c = false :=
  isPySpace_eq_false_of_ge (by have := isDigit_toNat h; omega)

theorem digit_ne_special {c : Char} (h : c.isDigit = true) :
    c ≠ '-' ∧ c ≠ '*' := by
  have hge := isDigit_toNat h
  exact ⟨char_ne_of_toNat_lt (by simp only [show ('-' : Char).toNat = 45 from by decide]; omega),
    char_ne_of_toNat_lt (by simp only [show ('*' : Char).toNat = 42 from by decide]; omega)⟩

/-! ### List facts for the numbering-cleanup proofs -/

theorem takeWhile_digits_append (ds rest : List Char)
    (hds : ds.all Char.isDigit = true)
    (hrest : ∀ c, rest.head? = some c → c.isDigit = false) :
    (ds ++ rest).takeWhile (fun c => c.isDigit) = ds := by
  induction ds with
  | nil =>
    cases rest with
    | nil => rfl
    | cons c t =>
      simp only [List.nil_append, List.takeWhile_cons, hrest c rfl]
      rfl
  | cons d ds ih =>
    simp only [List.all_cons, Bool.and_eq_true] at hds
    simp [List.takeWhile_cons, hds.1, ih hds.2]

theorem dropWhile_ws_append (w body : List Char) (hw : w.all isPySpace = true)
    (hbody : ∀ c, body.head? = some c → isPySpace c = false) :
    (w ++ body).dropWhile isPySpace = body := by
  induction w with
  | nil =>
    cases body with
    | nil => rfl
    | cons c t =>
      simp only [List.nil_append, List.dropWhile_cons, hbody c rfl]
      rfl
  | cons s w ih =>
    simp only [List.all_cons, Bool.and_eq_true] at hw
    simp [List.dropWhile_cons, hw.1, ih hw.2]

theorem pyStripChars_noop (l : List Char)
    (hhead : ∀ c, l.head? = some c → isPySpace c = false)
    (hlast : ∀ c, l.getLast? = some c → isPySpace c = false) :
    pyStripChars l = l := by
  unfold pyStripChars
  have h1 : l.dropWhile isPySpace = l := by
    cases l with
    | nil => rfl
    | cons c t =>
      simp only [List.dropWhile_cons, hhead c rfl]
      rfl
  rw [h1]
  have h2 : l.reverse.dropWhile isPySpace = l.reverse := by
    cases hr : l.reverse with
    | nil => rfl
    | cons c t =>
      have hc : l.getLast? = some c := by
        rw [← List.head?_reverse, hr]
        rfl
      simp only [List.dropWhile_cons, hlast c hc]
      rfl
  rw [h2, List.reverse_reverse]

end SplitService

theorem stringMk_ne_empty (l : List Char) (h : l ≠ []) : String.mk l ≠ "" := by
  intro he
  apply h
  have hd := congrArg String.data he
  simpa using hd

theorem getLast?_append_ne_nil {α : Type} (l l' : List α) (h : l' ≠ []) :
    (l ++ l').getLast? = l'.getLast? := by
  rw [List.getLast?_append]
  cases hl : l'.getLast? with
  | none =>
    exfalso
    apply h
    simpa using hl
  | some c => rfl


namespace SplitService

/-- Behaviour of `_clean_defect_text` on inputs of the four numbered shapes:
a 1–3 digit numeral followed by `.`, `)` or whitespace is always stripped
(together with the whitespace run after the separator), while a numeral glued
directly to a letter of the `[A-ZА-ЯЁа-яё]` class is stripped exactly when
the remainder is longer than 5 characters. -/
theorem clean_defect_text_numbering (ds w body : List Char)
    (hds_ne : ds ≠ []) (hds_len : ds.length ≤ 3)
    (hds_dig : ds.all Char.isDigit = true)
    (hw : w.all isPySpace = true)
    (hhead : headIsX gluedLetter body = true)
    (hlast : ∀ c, body.getLast? = some c → isPySpace c = false) :
    clean_defect_text (String.mk (ds ++ '.' :: (w ++ body))) = String.mk body ∧
    clean_defect_text (String.mk (ds ++ ')' :: (w ++ body))) = String.mk body ∧
    clean_defect_text (String.mk (ds ++ ' ' :: (w ++ body))) = String.mk body ∧
    clean_defect_text (String.mk (ds ++ body)) =
      (if 5 < body.length then String.mk body else String.mk (ds ++ body)) := by
  obtain ⟨b, t, rfl⟩ : ∃ b t, body = b :: t := by
    cases body with
    | nil => simp [headIsX] at hhead
    | cons b t => exact ⟨b, t, rfl⟩
  have hb : gluedLetter b = true := hhead
  have hbws : isPySpace b = false := gluedLetter_not_ws hb
  have hbdig : b.isDigit = false := gluedLetter_not_digit hb
  obtain ⟨hbdot, hbpar, hbdash, hbstar⟩ := gluedLetter_ne_special hb
  obtain ⟨d0, ds', rfl⟩ : ∃ d0 ds', ds = d0 :: ds' := by
    cases ds with
    | nil => exact absurd rfl hds_ne
    | cons d0 ds' => exact ⟨d0, ds', rfl⟩
  have hd0dig : d0.isDigit = true := by
    simp only [List.all_cons, Bool.and_eq_true] at hds_dig
    exact hds_dig.1
  have hd0ws : isPySpace d0 = false := digit_not_ws hd0dig
  obtain ⟨hd0dash, hd0star⟩ := digit_ne_special hd0dig
  have hds_dig' : (d0 :: ds').all Char.isDigit = true := by
    simpa using hds_dig
  have hbthead : ∀ c, (b :: t).head? = some c → isPySpace c = false := by
    intro c hc
    simp only [List.head?_cons, Option.some.injEq] at hc
    rw [← hc]
    exact hbws
  have hstripbt : pyStripChars (b :: t) = b :: t :=
    pyStripChars_noop _ hbthead hlast
  have hsep : ∀ sep : Char, isPySpace sep = false → sep.isDigit = false →
      clean_defect_text (String.mk ((d0 :: ds') ++ sep :: (w ++ b :: t))) =
        (if ((1 ≤ (d0 :: ds').length && (d0 :: ds').length ≤ 3) &&
            headIsX (fun c => c = '.' || c = ')') (sep :: (w ++ b :: t))) = true then
          String.mk ((sep :: (w ++ b :: t)).drop 1 |>.dropWhile isPySpace)
        else
          clean_defect_text (String.mk ((d0 :: ds') ++ sep :: (w ++ b :: t)))) := by
    intro sep _ _
    split
    case isFalse => rfl
    case isTrue hcond =>
      have hXstrip : pyStripChars
          (String.mk ((d0 :: ds') ++ sep :: (w ++ b :: t))).data =
          (d0 :: ds') ++ sep :: (w ++ b :: t) := by
        apply pyStripChars_noop
        · intro c hc
          simp only [List.cons_append, List.head?_cons, Option.some.injEq] at hc
          rw [← hc]
          exact hd0ws
        · intro c hc
          rw [getLast?_append_ne_nil _ _ (by simp)] at hc
          rw [show sep :: (w ++ b :: t) = [sep] ++ (w ++ b :: t) from rfl] at hc
          rw [getLast?_append_ne_nil _ _ (by simp)] at hc
          rw [getLast?_append_ne_nil _ _ (by simp)] at hc
          exact hlast c hc
      have hdrl : digitRunLen ((d0 :: ds') ++ sep :: (w ++ b :: t)) =
          (d0 :: ds').length := by
        unfold digitRunLen
        rw [takeWhile_digits_append _ _ hds_dig']
        intro c hc
        simp only [List.head?_cons, Option.some.injEq] at hc
        rw [← hc]
        assumption
      simp only [clean_defect_text, hXstrip]
      rw [if_neg (stringMk_ne_empty _ (by simp))]
      rw [hdrl, List.drop_left]
      rw [if_pos hcond]
      have hdw : ((sep :: (w ++ b :: t)).drop 1).dropWhile isPySpace = b :: t := by
        rw [show (sep :: (w ++ b :: t)).drop 1 = w ++ b :: t by simp]
        exact dropWhile_ws_append w (b :: t) hw hbthead
      rw [hdw]
      simp [hbdash, hbstar, hstripbt, hdw]
  have hws : ∀ sep : Char, isPySpace sep = true → sep.isDigit = false →
      clean_defect_text (String.mk ((d0 :: ds') ++ sep :: (w ++ b :: t))) =
        String.mk (b :: t) := by
    intro sep hsepws hsepdig
    have hXstrip : pyStripChars
        (String.mk ((d0 :: ds') ++ sep :: (w ++ b :: t))).data =
        (d0 :: ds') ++ sep :: (w ++ b :: t) := by
      apply pyStripChars_noop
      · intro c hc
        simp only [List.cons_append, List.head?_cons, Option.some.injEq] at hc
        rw [← hc]
        exact hd0ws
      · intro c hc
        rw [getLast?_append_ne_nil _ _ (by simp)] at hc
        rw [show sep :: (w ++ b :: t) = [sep] ++ (w ++ b :: t) from rfl] at hc
        rw [getLast?_append_ne_nil _ _ (by simp)] at hc
        rw [getLast?_append_ne_nil _ _ (by simp)] at hc
        exact hlast c hc
    have hdrl : digitRunLen ((d0 :: ds') ++ sep :: (w ++ b :: t)) =
        (d0 :: ds').length := by
      unfold digitRunLen
      rw [takeWhile_digits_append _ _ hds_dig']
      intro c hc
      simp only [List.head?_cons, Option.some.injEq] at hc
      rw [← hc]
      exact hsepdig
    have hsepdot : sep ≠ '.' := by
      intro he
      rw [he] at hsepws
      exact absurd hsepws (by decide)
    have hseppar : sep ≠ ')' := by
      intro he
      rw [he] at hsepws
      exact absurd hsepws (by decide)
    simp only [clean_defect_text, hXstrip]
    rw [if_neg (stringMk_ne_empty _ (by simp))]
    rw [hdrl, List.drop_left]
    rw [if_neg (show ¬(((1 ≤ (d0 :: ds').length && (d0 :: ds').length ≤ 3) &&
        headIsX (fun c => c = '.' || c = ')') (sep :: (w ++ b :: t))) = true) by
      simp [headIsX, hsepdot, hseppar])]
    rw [if_pos (show ((1 ≤ (d0 :: ds').length && (d0 :: ds').length ≤ 3) &&
        headIsX isPySpace (sep :: (w ++ b :: t))) = true by
      simp only [headIsX, Bool.and_eq_true, decide_eq_true_eq]
      exact ⟨⟨by simp, hds_len⟩, hsepws⟩)]
    have hdw : (sep :: (w ++ b :: t)).dropWhile isPySpace = b :: t := by
      rw [List.dropWhile_cons, if_pos hsepws]
      exact dropWhile_ws_append w (b :: t) hw hbthead
    rw [hdw]
    simp [hbdash, hbstar, hstripbt]
  refine ⟨?_, ?_, ?_, ?_⟩
  · rw [hsep '.' (by decide) (by decide)]
    rw [if_pos (by
      simp only [headIsX, Bool.and_eq_true, decide_eq_true_eq]
      exact ⟨⟨by simp, hds_len⟩, by simp⟩)]
    have hdw : ((('.') :: (w ++ b :: t)).drop 1).dropWhile isPySpace = b :: t := by
      rw [show (('.') :: (w ++ b :: t)).drop 1 = w ++ b :: t by simp]
      exact dropWhile_ws_append w (b :: t) hw hbthead
    rw [hdw]
  · rw [hsep ')' (by decide) (by decide)]
    rw [if_pos (by
      simp only [headIsX, Bool.and_eq_true, decide_eq_true_eq]
      exact ⟨⟨by simp, hds_len⟩, by simp⟩)]
    have hdw : (((')') :: (w ++ b :: t)).drop 1).dropWhile isPySpace = b :: t := by
      rw [show ((')') :: (w ++ b :: t)).drop 1 = w ++ b :: t by simp]
      exact dropWhile_ws_append w (b :: t) hw hbthead
    rw [hdw]
  · exact hws ' ' (by decide) (by decide)
  · have hXstrip : pyStripChars (String.mk ((d0 :: ds') ++ b :: t)).data =
        (d0 :: ds') ++ b :: t := by
      apply pyStripChars_noop
      · intro c hc
        simp only [List.cons_append, List.head?_cons, Option.some.injEq] at hc
        rw [← hc]
        exact hd0ws
      · intro c hc
        rw [getLast?_append_ne_nil _ _ (by simp)] at hc
        exact hlast c hc
    have hdrl : digitRunLen ((d0 :: ds') ++ b :: t) = (d0 :: ds').length := by
      unfold digitRunLen
      rw [takeWhile_digits_append _ _ hds_dig']
      intro c hc
      simp only [List.head?_cons, Option.some.injEq] at hc
      rw [← hc]
      exact hbdig
    simp only [clean_defect_text, hXstrip]
    rw [if_neg (stringMk_ne_empty _ (by simp))]
    rw [hdrl, List.drop_left]
    rw [if_neg (show ¬(((1 ≤ (d0 :: ds').length && (d0 :: ds').length ≤ 3) &&
        headIsX (fun c => c = '.' || c = ')') (b :: t)) = true) by
      simp [headIsX, hbdot, hbpar])]
    rw [if_neg (show ¬(((1 ≤ (d0 :: ds').length && (d0 :: ds').length ≤ 3) &&
        headIsX isPySpace (b :: t)) = true) by
      simp [headIsX, hbws])]
    rw [if_pos (show ((1 ≤ (d0 :: ds').length && (d0 :: ds').length ≤ 3) &&
        headIsX gluedLetter (b :: t)) = true by
      simp only [headIsX, Bool.and_eq_true, decide_eq_true_eq]
      exact ⟨⟨by simp, hds_len⟩, hb⟩)]
    by_cases h5 : 5 < (b :: t).length
    · rw [if_pos h5, if_pos h5]
      simp [hbdash, hbstar, hstripbt]
    · rw [if_neg h5, if_neg h5]
      have hXstrip2 : pyStripChars (d0 :: (ds' ++ b :: t)) = d0 :: (ds' ++ b :: t) := by
        apply pyStripChars_noop
        · intro c hc
          simp only [List.head?_cons, Option.some.injEq] at hc
          rw [← hc]
          exact hd0ws
        · intro c hc
          have hc2 : ((d0 :: ds') ++ b :: t).getLast? = some c := hc
          rw [getLast?_append_ne_nil _ _ (by simp)] at hc2
          exact hlast c hc2
      simp [List.cons_append, hd0dash, hd0star, hXstrip2]

end SplitService

/-! ### Substring-search facts for the no-defects patterns -/

theorem isPrefixOf_self_append (p r : List Char) : List.isPrefixOf p (p ++ r) = true := by
  induction p with
  | nil => cases r <;> rfl
  | cons a as ih => simp [List.isPrefixOf, ih]

theorem stripHead_self_append (p r : List Char) : stripHead? p (p ++ r) = some r := by
  unfold stripHead?
  rw [if_pos (isPrefixOf_self_append p r), List.drop_left]

theorem phraseAt_exact (w1 w2 r : List Char) (sp : Char) (hsp : isPySpace sp = true)
    (hw2 : ∀ c, w2.head? = some c → isPySpace c = false) (hw2ne : w2 ≠ []) :
    phraseAt w1 w2 (w1 ++ sp :: (w2 ++ r)) = true := by
  unfold phraseAt
  rw [stripHead_self_append]
  have hspan2 : spanWs (w2 ++ r) = ([], w2 ++ r) := by
    cases w2 with
    | nil => exact absurd rfl hw2ne
    | cons c w2' =>
      have : isPySpace c = false := hw2 c rfl
      simp [spanWs, this]
  have hspan : spanWs (sp :: (w2 ++ r)) = ([sp], w2 ++ r) := by
    simp [spanWs, hsp, hspan2]
  simp [hspan, isPrefixOf_self_append]

theorem searchPhrase_append (w1 w2 x l : List Char) (hne : l ≠ [])
    (h : phraseAt w1 w2 l = true) : searchPhrase w1 w2 (x ++ l) = true := by
  induction x with
  | nil =>
    cases l with
    | nil => exact absurd rfl hne
    | cons c cs => simp [searchPhrase, h]
  | cons c x' ih => simp [searchPhrase, ih]

namespace SplitService

/-- Any comment containing one of the three no-defects phrases anywhere as a
substring (in any letter case) is treated as empty by `_is_empty_comment`,
because the compiled pattern is applied with `re.search`. -/
theorem is_empty_comment_substring (a b : String) (p : String)
    (hp : p = "нет замечаний" ∨ p = "без замечаний" ∨ p = "замечания отсутствуют" ∨
      p = "НЕТ ЗАМЕЧАНИЙ") :
    is_empty_comment (a ++ p ++ b) = true := by
  have hpne : p.data ≠ [] := by
    rcases hp with rfl | rfl | rfl | rfl <;> decide
  have hne : a ++ p ++ b ≠ "" := by
    intro he
    apply hpne
    have hd := congrArg String.data he
    rw [String.data_append, String.data_append,
      show ("" : String).data = [] from rfl] at hd
    exact (List.append_eq_nil.mp (List.append_eq_nil.mp hd).1).2
  have hsearch : ∀ (w1 w2 : List Char),
      p.data.map ruLowerChar = w1 ++ ' ' :: w2 →
      (∀ c, w2.head? = some c → isPySpace c = false) → w2 ≠ [] →
      searchPhrase w1 w2 ((a ++ p ++ b).data.map ruLowerChar) = true := by
    intro w1 w2 hmap hw2 hw2ne
    have hdata : (a ++ p ++ b).data.map ruLowerChar =
        (a.data.map ruLowerChar) ++
          (w1 ++ ' ' :: (w2 ++ b.data.map ruLowerChar)) := by
      rw [String.data_append, String.data_append, List.map_append,
        List.map_append, hmap]
      simp [List.append_assoc]
    rw [hdata]
    exact searchPhrase_append _ _ _ _
      (by
        intro hl
        have := (List.append_eq_nil.mp hl).2
        simp at this)
      (phraseAt_exact w1 w2 (b.data.map ruLowerChar) ' ' (by decide) hw2 hw2ne)
  unfold is_empty_comment
  rw [if_neg hne]
  rcases hp with rfl | rfl | rfl | rfl
  all_goals
    show (((a ++ _ ++ b).data.map ruLowerChar).all isPySpace
      || searchPhrase "нет".data "замечаний".data ((a ++ _ ++ b).data.map ruLowerChar)
      || searchPhrase "без".data "замечаний".data ((a ++ _ ++ b).data.map ruLowerChar)
      || searchPhrase "замечания".data "отсутствуют".data
          ((a ++ _ ++ b).data.map ruLowerChar)) = true
  · have hs := hsearch "нет".data "замечаний".data (by decide) (by decide) (by decide)
    rw [hs]
    simp
  · have hs := hsearch "без".data "замечаний".data (by decide) (by decide) (by decide)
    rw [hs]
    simp
  · have hs := hsearch "замечания".data "отсутствуют".data (by decide) (by decide)
      (by decide)
    rw [hs]
    simp
  · have hs := hsearch "нет".data "замечаний".data (by decide) (by decide) (by decide)
    rw [hs]
    simp

/-- Evaluation of `split_batch` on a single comment treated as empty: the
result is `[]`, nothing is cached, and the capability is not called. -/
theorem split_batch_single_empty (llm : List String → List SplitResult)
    (cache : List (String × List String)) (s : String)
    (he : is_empty_comment s = true) :
    split_batch llm cache [s] = ([some []], cache, []) := by
  have hfp : firstPass (splitHandle cache) (enumFrom 0 [s])
      [none] [] = ([some []], []) := by
    simp [enumFrom, firstPass, splitHandle, he]
  simp [split_batch, hfp]

end SplitService

namespace SplitService

/-- Evaluation of `split_batch` on a single cached comment: the cached value
is reused, nothing changes, and the capability is not called. -/
theorem split_batch_single_hit (llm : List String → List SplitResult)
    (cache : List (String × List String)) (c : String) (v : List String)
    (he : is_empty_comment c = false) (hc : cacheGet cache c = some v) :
    split_batch llm cache [c] = ([some v], cache, []) := by
  have hfp : firstPass (splitHandle cache) (enumFrom 0 [c])
      [none] [] = ([some v], []) := by
    simp [enumFrom, firstPass, splitHandle, he, hc]
  simp [split_batch, hfp]

/-- Evaluation of `split_batch` on a single uncached non-empty comment: the
comment is submitted to the capability, and the computed defect list is both
returned and cached. -/
theorem split_batch_single_miss (llm : List String → List SplitResult)
    (cache : List (String × List String)) (c : String)
    (he : is_empty_comment c = false) (hc : cacheGet cache c = none) :
    split_batch llm cache [c] =
      ([some (splitComputed (llm [c]) 0 c)],
        cacheSet cache c (splitComputed (llm [c]) 0 c), [c]) := by
  have hfp : firstPass (splitHandle cache) (enumFrom 0 [c])
      [none] [] = ([none], [(0, c)]) := by
    simp [enumFrom, firstPass, splitHandle, he, hc]
  simp [split_batch, hfp, splitSecondPass]

/-- Cache idempotence of `split_batch` on a single comment: a repeated call
returns the same result, submits nothing to the capability, and is in fact
independent of the capability altogether. -/
theorem split_batch_idempotent (llm : List String → List SplitResult)
    (cache : List (String × List String)) (c : String) :
    (split_batch llm (split_batch llm cache [c]).2.1 [c]).1 =
      (split_batch llm cache [c]).1 ∧
    (split_batch llm (split_batch llm cache [c]).2.1 [c]).2.2 = [] ∧
    (∀ llm2, split_batch llm2 (split_batch llm cache [c]).2.1 [c] =
      split_batch llm (split_batch llm cache [c]).2.1 [c]) := by
  cases he : is_empty_comment c with
  | true =>
    rw [split_batch_single_empty llm cache c he]
    simp only
    rw [split_batch_single_empty llm cache c he]
    refine ⟨rfl, rfl, fun llm2 => ?_⟩
    rw [split_batch_single_empty llm2 cache c he]
  | false =>
    cases hc : cacheGet cache c with
    | some v =>
      rw [split_batch_single_hit llm cache c v he hc]
      simp only
      rw [split_batch_single_hit llm cache c v he hc]
      refine ⟨rfl, rfl, fun llm2 => ?_⟩
      rw [split_batch_single_hit llm2 cache c v he hc]
    | none =>
      rw [split_batch_single_miss llm cache c he hc]
      simp only
      have hc2 : cacheGet (cacheSet cache c (splitComputed (llm [c]) 0 c)) c =
          some (splitComputed (llm [c]) 0 c) := cacheGet_set_self _ _ _
      rw [split_batch_single_hit llm _ c _ he hc2]
      refine ⟨rfl, rfl, fun llm2 => ?_⟩
      rw [split_batch_single_hit llm2 _ c _ he hc2]

/-- The concrete empty-comment short-circuit scenario of the spec. -/
theorem split_batch_empty_scenario (llm : List String → List SplitResult)
    (cache : List (String × List String)) :
    split_batch llm cache ["", "   ", "нет замечаний"] =
      ([some [], some [], some []], cache, []) := by
  have h0 : is_empty_comment "" = true := by decide
  have h1 : is_empty_comment "   " = true := by decide
  have h2 : is_empty_comment "нет замечаний" = true := by decide
  have hfp : firstPass (splitHandle cache) (enumFrom 0 ["", "   ", "нет замечаний"])
      [none, none, none] [] = ([some [], some [], some []], []) := by
    simp [enumFrom, firstPass, splitHandle, h0, h1, h2]
  simp [split_batch, hfp]

end SplitService

/-! ### The claims -/

/-- C1: for every list of comments (including the empty list), `split_batch`
returns a result buffer whose length equals the number of input comments with
every slot written, and for every list of defects (including the empty list),
`classify_batch` returns a result buffer whose length equals the number of
input defects with every slot written — the i-th slot being computed from the
i-th input. -/
theorem claim_C1 (llmS : List String → List SplitResult)
    (cacheS : List (String × List String)) (comments : List String)
    (idx : CategoryIndex) (topN : Nat) (s1 s2 : String → String → Nat)
    (llmC : List (String × List String) → List ClassifyResult)
    (cacheC : List (String × (String × Nat))) (defects : List String)
    (outC : List (Option (String × Nat)) × List (String × (String × Nat)) ×
      List (String × List String))
    (hok : ClassifyService.classify_batch idx topN s1 s2 llmC cacheC defects =
      .ok outC) :
    (SplitService.split_batch llmS cacheS comments).1.length = comments.length ∧
    (∀ i, i < comments.length →
      ∃ v, ((SplitService.split_batch llmS cacheS comments).1)[i]? = some (some v)) ∧
    outC.1.length = defects.length ∧
    (∀ i, i < defects.length → ∃ v, outC.1[i]? = some (some v)) :=
  ⟨SplitService.split_batch_length llmS cacheS comments,
    fun i hi => SplitService.split_batch_isSome llmS cacheS comments i hi,
    ClassifyService.classify_batch_length idx topN s1 s2 llmC cacheC defects outC hok,
    fun i hi =>
      ClassifyService.classify_batch_isSome idx topN s1 s2 llmC cacheC defects outC hok i hi⟩

theorem claim_C1_witness :
    (SplitService.split_batch (fun _ => []) [] ["1. Трещина"]).1.length = 1 ∧
    (∃ v, ((SplitService.split_batch (fun _ => []) [] ["1. Трещина"]).1)[0]? =
      some (some v)) ∧
    (([some ("НЕ ОПРЕДЕЛЕНО", 0)], [("скол", ("НЕ ОПРЕДЕЛЕНО", 0))],
        [("скол", ["Окно", "НЕ ОПРЕДЕЛЕНО"])]) :
      List (Option (String × Nat)) × List (String × (String × Nat)) ×
        List (String × List String)).1.length = 1 := by
  have h := claim_C1 (fun _ => []) [] ["1. Трещина"]
    (CategoryIndex.mk ["Окно"] true (fun _ n => List.take n ["Окно"])) 10
    (fun _ _ => 0) (fun _ _ => 0) (fun _ => []) [] ["скол"]
    ([some ("НЕ ОПРЕДЕЛЕНО", 0)], [("скол", ("НЕ ОПРЕДЕЛЕНО", 0))],
      [("скол", ["Окно", "НЕ ОПРЕДЕЛЕНО"])])
    rfl
  exact ⟨h.1, h.2.1 0 (by decide), h.2.2.1⟩

/-- C2: every category returned by `classify_batch` for a defect (given a
cache whose entries already satisfy the constraint) is the reserved sentinel
"НЕ ОПРЕДЕЛЕНО" or a member of the candidate set offered to the external
capability for that defect; moreover an invalid external answer (a
non-candidate or a denylisted generic answer) never influences the resolved
pair: any two invalid answers resolve identically, so such an answer is never
returned verbatim. -/
theorem claim_C2 (idx : CategoryIndex) (topN : Nat)
    (s1 s2 : String → String → Nat)
    (llmC : List (String × List String) → List ClassifyResult)
    (cacheC : List (String × (String × Nat))) (defects : List String)
    (outC : List (Option (String × Nat)) × List (String × (String × Nat)) ×
      List (String × List String))
    (hcache : ∀ d v, cacheGet cacheC d = some v →
      ClassifyService.AllowedCat idx topN d v.1)
    (hok : ClassifyService.classify_batch idx topN s1 s2 llmC cacheC defects =
      .ok outC) :
    (∀ (i : Nat) (d : String) (v : String × Nat), defects[i]? = some d →
      outC.1[i]? = some (some v) →
      v.1 = ClassifyService.UNDETERMINED ∨
        ∃ cs, ClassifyService.candidatesFor idx topN d = .ok cs ∧ v.1 ∈ cs) ∧
    (∀ (defect : String) (cands : List String) (r r' : ClassifyResult),
      ClassifyService.is_invalid_answer cands r.chosen = true →
      ClassifyService.is_invalid_answer cands r'.chosen = true →
      ClassifyService.resolveOne s1 s2 defect cands (some r) =
        ClassifyService.resolveOne s1 s2 defect cands (some r')) :=
  ⟨fun i d v hd hv =>
      ClassifyService.classify_batch_sound idx topN s1 s2 llmC cacheC defects outC
        hcache hok i d v hd hv,
    fun defect cands r r' h h' =>
      ClassifyService.resolveOne_invalid_indep s1 s2 defect cands r r' h h'⟩

theorem claim_C2_witness :
    (("НЕ ОПРЕДЕЛЕНО", 0).1 = ClassifyService.UNDETERMINED ∨
      ∃ cs, ClassifyService.candidatesFor
        (CategoryIndex.mk ["Окно"] true (fun _ n => List.take n ["Окно"])) 10 "скол" =
          .ok cs ∧ ("НЕ ОПРЕДЕЛЕНО", 0).1 ∈ cs) ∧
    ClassifyService.resolveOne (fun _ _ => 0) (fun _ _ => 0) "скол"
        ["Окно", "НЕ ОПРЕДЕЛЕНО"] (some (ClassifyResult.mk "другое" 77)) =
      ClassifyService.resolveOne (fun _ _ => 0) (fun _ _ => 0) "скол"
        ["Окно", "НЕ ОПРЕДЕЛЕНО"] (some (ClassifyResult.mk "Стена" 88)) := by
  have h := claim_C2 (CategoryIndex.mk ["Окно"] true (fun _ n => List.take n ["Окно"]))
    10 (fun _ _ => 0) (fun _ _ => 0) (fun _ => []) [] ["скол"]
    ([some ("НЕ ОПРЕДЕЛЕНО", 0)], [("скол", ("НЕ ОПРЕДЕЛЕНО", 0))],
      [("скол", ["Окно", "НЕ ОПРЕДЕЛЕНО"])])
    (by intro d v hv; simp [cacheGet] at hv) rfl
  exact ⟨h.1 0 "скол" ("НЕ ОПРЕДЕЛЕНО", 0) (by decide) (by decide),
    h.2 "скол" ["Окно", "НЕ ОПРЕДЕЛЕНО"] (ClassifyResult.mk "другое" 77)
      (ClassifyResult.mk "Стена" 88) (by decide) (by decide)⟩

/-- C3 (amended): `expand_rows` on M rows with defect lists of sizes
`[k_1, …, k_M]` produces exactly `Σ c_i` rows where `c_i = k_i` when
`k_i > 0`, and a row with `k_i = 0` contributes exactly 1 row (carrying its
stripped `valueText` content as the single defect) when that content is
non-blank and 0 rows otherwise — the fallback is unconditional, not gated by
any configuration. -/
theorem claim_C3 (rows : List ExpandService.Row) (dpr : List (List String))
    (col : String) (out : List ExpandService.ExpandedRow)
    (hok : ExpandService.expand_rows rows dpr col = .ok out) :
    out.length = ((rows.zip dpr).map ExpandService.expandContribution).sum := by
  unfold ExpandService.expand_rows at hok
  split at hok
  · exact absurd hok (by simp)
  · simp only [Except.ok.injEq] at hok
    subst hok
    exact ExpandService.expandGo_length _ col

/-- C3 (counterexample): a single row with zero extracted defects but a
non-blank `valueText` produces 1 output row, not `sum(k_i) = 0` — there is no
configuration gate on the fallback. -/
theorem claim_C3_counterexample :
    Except.map List.length
        (ExpandService.expand_rows [[("valueText", some "Трещина в стене")]] [[]]
          "Дефект") = Except.ok 1 ∧
    (([[]] : List (List String)).map List.length).sum = 0 ∧ (1 : Nat) ≠ 0 :=
  ⟨rfl, rfl, by decide⟩

theorem claim_C3_witness :
    Except.map List.length
        (ExpandService.expand_rows [[("ID", some "1")]] [["Дефект 1", "Дефект 2"]]
          "Дефект") = Except.ok 2 := by
  have hok : ExpandService.expand_rows [[("ID", some "1")]] [["Дефект 1", "Дефект 2"]]
      "Дефект" = .ok (ExpandService.expandGo
        [([("ID", some "1")], ["Дефект 1", "Дефект 2"])] "Дефект") := rfl
  have h := claim_C3 [[("ID", some "1")]] [["Дефект 1", "Дефект 2"]] "Дефект" _ hok
  rw [hok]
  show Except.ok (ExpandService.expandGo
    [([("ID", some "1")], ["Дефект 1", "Дефект 2"])] "Дефект").length = Except.ok 2
  rw [h]
  rw [show (List.map ExpandService.expandContribution
    ([[("ID", some "1")]].zip [["Дефект 1", "Дефект 2"]])).sum = 2 from by decide]

/-- C4: on an item-count mismatch with the submitted batch, the response
parsers return exactly one result per submitted item — in-range items are
parsed in order, short responses are padded with the documented sentinel (an
empty defect list for split, "НЕ ОПРЕДЕЛЕНО" for classify) and excess items
are truncated, with no exception and no misalignment. -/
theorem claim_C4 (rawS : List (List String)) (rawC : List LLMClient.RespItem)
    (n : Nat) :
    (LLMClient.parse_split_results rawS n).length = n ∧
    (∀ (i : Nat) (item : List String), i < n → rawS[i]? = some item →
      (LLMClient.parse_split_results rawS n)[i]? =
        some (SplitResult.mk ((LLMClient.dedupDefects item []).map DefectItem.mk))) ∧
    (∀ i : Nat, rawS.length ≤ i → i < n →
      (LLMClient.parse_split_results rawS n)[i]? = some (SplitResult.mk [])) ∧
    (LLMClient.parse_classify_results rawC n).length = n ∧
    (∀ (i : Nat) (item : LLMClient.RespItem), i < n → rawC[i]? = some item →
      (LLMClient.parse_classify_results rawC n)[i]? =
        some (ClassifyResult.mk (item.chosen.getD "НЕ ОПРЕДЕЛЕНО") 0)) ∧
    (∀ i : Nat, rawC.length ≤ i → i < n →
      (LLMClient.parse_classify_results rawC n)[i]? =
        some (ClassifyResult.mk "НЕ ОПРЕДЕЛЕНО" 0)) :=
  ⟨LLMClient.parse_split_results_length rawS n,
    fun i item h2 hi => LLMClient.parse_split_results_align rawS n i item h2 hi,
    fun i h1 h2 => LLMClient.parse_split_results_pad rawS n i h1 h2,
    LLMClient.parse_classify_results_length rawC n,
    fun i item h2 hi => LLMClient.parse_classify_results_align rawC n i item h2 hi,
    fun i h1 h2 => LLMClient.parse_classify_results_pad rawC n i h1 h2⟩

theorem claim_C4_witness :
    (LLMClient.parse_split_results [["1. скол", "трещина"]] 2).length = 2 ∧
    (LLMClient.parse_split_results [["1. скол", "трещина"]] 2)[1]? =
      some (SplitResult.mk []) ∧
    (LLMClient.parse_classify_results [] 2).length = 2 ∧
    (LLMClient.parse_classify_results [] 2)[0]? =
      some (ClassifyResult.mk "НЕ ОПРЕДЕЛЕНО" 0) := by
  have h := claim_C4 [["1. скол", "трещина"]] [] 2
  exact ⟨h.1, h.2.2.1 1 (by decide) (by decide), h.2.2.2.1,
    h.2.2.2.2.2 0 (by decide) (by decide)⟩

/-- C5: every comment that is null/blank or matches one of the fixed
no-defects phrasings receives the empty defect list from `split_batch`, and
no such comment is ever submitted to the external capability; in particular
`split_batch ["", "   ", "нет замечаний"]` yields `[[], [], []]` with no
capability call and an unchanged cache. -/
theorem claim_C5 (llm : List String → List SplitResult)
    (cache : List (String × List String)) (comments : List String) (i : Nat)
    (d : String) (hd : comments[i]? = some d)
    (he : SplitService.is_empty_comment d = true) :
    ((SplitService.split_batch llm cache comments).1)[i]? = some (some []) ∧
    (∀ t, t ∈ (SplitService.split_batch llm cache comments).2.2 →
      SplitService.is_empty_comment t = false) ∧
    SplitService.split_batch llm cache ["", "   ", "нет замечаний"] =
      ([some [], some [], some []], cache, []) := by
  refine ⟨SplitService.split_batch_get_handled llm cache comments i d [] hd
      (by simp [SplitService.splitHandle, he]), ?_,
    SplitService.split_batch_empty_scenario llm cache⟩
  intro t ht
  have hsent := SplitService.split_batch_sent llm cache comments t ht
  unfold SplitService.splitHandle at hsent
  cases hh : SplitService.is_empty_comment t with
  | false => rfl
  | true => simp [hh] at hsent

theorem claim_C5_witness :
    ((SplitService.split_batch (fun _ => []) [] ["нет замечаний"]).1)[0]? =
      some (some []) ∧
    SplitService.split_batch (fun _ => []) [] ["", "   ", "нет замечаний"] =
      ([some [], some [], some []], [], []) := by
  have h := claim_C5 (fun _ => []) [] ["нет замечаний"] 0 "нет замечаний" rfl (by decide)
  exact ⟨h.1, h.2.2⟩

/-- C6: calling `split_batch` twice on the same single comment returns
identical results, and the second call submits nothing to the external
capability — its outcome does not depend on the capability at all. -/
theorem claim_C6 (llm : List String → List SplitResult)
    (cache : List (String × List String)) (c : String) :
    (SplitService.split_batch llm
        (SplitService.split_batch llm cache [c]).2.1 [c]).1 =
      (SplitService.split_batch llm cache [c]).1 ∧
    (SplitService.split_batch llm
        (SplitService.split_batch llm cache [c]).2.1 [c]).2.2 = [] ∧
    (∀ llm2, SplitService.split_batch llm2
        (SplitService.split_batch llm cache [c]).2.1 [c] =
      SplitService.split_batch llm
        (SplitService.split_batch llm cache [c]).2.1 [c]) :=
  SplitService.split_batch_idempotent llm cache c

/-- C7: after the index is built, `find_top_n` on empty or whitespace-only
text returns exactly the first `n` categories of the loaded list in source
order, whenever the index holds at least `n` categories. -/
theorem claim_C7 (idx : CategoryIndex) (text : String) (n : Nat)
    (hbuilt : idx.indexBuilt = true) (hblank : text = "" ∨ pyStrip text = "")
    (hn : n ≤ idx.categories.length) :
    idx.find_top_n text n = .ok (idx.categories.take n) ∧
      (idx.categories.take n).length = n :=
  find_top_n_blank idx text n hbuilt hblank hn

theorem claim_C7_witness :
    (CategoryIndex.mk ["к1", "к2", "к3", "к4", "к5", "к6"] true
        (fun _ _ => [])).find_top_n "" 5 =
      .ok (List.take 5 ["к1", "к2", "к3", "к4", "к5", "к6"]) ∧
    (List.take 5 ["к1", "к2", "к3", "к4", "к5", "к6"]).length = 5 :=
  claim_C7 (CategoryIndex.mk ["к1", "к2", "к3", "к4", "к5", "к6"] true (fun _ _ => []))
    "" 5 rfl (Or.inl rfl) (by decide)

/-- C8: defect-text cleaning strips a leading 1-to-3-digit numeral followed
by a dot, closing parenthesis or whitespace unconditionally, and strips a
numeral glued directly to a following letter exactly when the remainder is
longer than the fixed threshold of 5 characters, so short units are left
intact. -/
theorem claim_C8 (ds w body : List Char)
    (hds_ne : ds ≠ []) (hds_len : ds.length ≤ 3)
    (hds_dig : ds.all Char.isDigit = true)
    (hw : w.all isPySpace = true)
    (hhead : headIsX SplitService.gluedLetter body = true)
    (hlast : ∀ c, body.getLast? = some c → isPySpace c = false) :
    SplitService.clean_defect_text (String.mk (ds ++ '.' :: (w ++ body))) =
      String.mk body ∧
    SplitService.clean_defect_text (String.mk (ds ++ ')' :: (w ++ body))) =
      String.mk body ∧
    SplitService.clean_defect_text (String.mk (ds ++ ' ' :: (w ++ body))) =
      String.mk body ∧
    SplitService.clean_defect_text (String.mk (ds ++ body)) =
      (if 5 < body.length then String.mk body else String.mk (ds ++ body)) :=
  SplitService.clean_defect_text_numbering ds w body hds_ne hds_len hds_dig hw
    hhead hlast

theorem claim_C8_witness :
    SplitService.clean_defect_text (String.mk (['1'] ++ '.' :: ([' '] ++ "Defect A".data))) =
      String.mk "Defect A".data ∧
    SplitService.clean_defect_text (String.mk (['2'] ++ ')' :: ([' '] ++ "Defect B".data))) =
      String.mk "Defect B".data ∧
    SplitService.clean_defect_text (String.mk (['3'] ++ "Царапина".data)) =
      (if 5 < "Царапина".data.length then String.mk "Царапина".data
        else String.mk (['3'] ++ "Царапина".data)) ∧
    SplitService.clean_defect_text (String.mk (['5'] ++ "шт".data)) =
      (if 5 < "шт".data.length then String.mk "шт".data
        else String.mk (['5'] ++ "шт".data)) := by
  have hA := claim_C8 ['1'] [' '] "Defect A".data (by decide) (by decide) (by decide)
    (by decide) (by decide)
    (by
      intro c hc
      have : ("Defect A".data.getLast?) = some 'A' := by decide
      rw [this] at hc
      injection hc with h
      rw [← h]
      decide)
  have hB := claim_C8 ['2'] [' '] "Defect B".data (by decide) (by decide) (by decide)
    (by decide) (by decide)
    (by
      intro c hc
      have : ("Defect B".data.getLast?) = some 'B' := by decide
      rw [this] at hc
      injection hc with h
      rw [← h]
      decide)
  have hC := claim_C8 ['3'] [] "Царапина".data (by decide) (by decide) (by decide)
    (by decide) (by decide)
    (by
      intro c hc
      have : ("Царапина".data.getLast?) = some 'а' := by decide
      rw [this] at hc
      injection hc with h
      rw [← h]
      decide)
  have hD := claim_C8 ['5'] [] "шт".data (by decide) (by decide) (by decide)
    (by decide) (by decide)
    (by
      intro c hc
      have : ("шт".data.getLast?) = some 'т' := by decide
      rw [this] at hc
      injection hc with h
      rw [← h]
      decide)
  exact ⟨hA.1, hB.2.1, hC.2.2.2, hD.2.2.2⟩

/-- C9: every `ClassifyResult` produced by the classify response parser has
confidence 0 (only the `chosen` field of each item is read, and the
`confidence` default 0 applies), so whenever the parsed answer passes
validation in `classify_batch`, the returned and cached pair carries
confidence exactly 0 — nonzero confidences can only arise from the fuzzy
fallback paths. -/
theorem claim_C9 (raw : List LLMClient.RespItem) (n : Nat)
    (s1 s2 : String → String → Nat) (d : String) (cands : List String) :
    (∀ r, r ∈ LLMClient.parse_classify_results raw n → r.confidence = 0) ∧
    (∀ (i : Nat) (r : ClassifyResult),
      (LLMClient.parse_classify_results raw n)[i]? = some r →
      ClassifyService.is_invalid_answer cands r.chosen = false →
      ClassifyService.resolveOne s1 s2 d cands (some r) = (r.chosen, 0)) := by
  constructor
  · exact fun r h => LLMClient.parse_classify_results_confidence raw n r h
  · intro i r hr hval
    have hconf : r.confidence = 0 :=
      LLMClient.parse_classify_results_confidence raw n r (List.getElem?_mem hr)
    have hnv : ¬(ClassifyService.is_invalid_answer cands r.chosen = true) := by
      rw [hval]
      simp
    have hres : ClassifyService.resolveOne s1 s2 d cands (some r) =
        (r.chosen, r.confidence) := by
      simp only [ClassifyService.resolveOne, if_neg hnv]
    rw [hres, hconf]

theorem claim_C9_witness :
    (∀ r, r ∈ LLMClient.parse_classify_results [LLMClient.RespItem.mk (some "Кат")] 1 →
      r.confidence = 0) ∧
    ClassifyService.resolveOne (fun _ _ => 0) (fun _ _ => 0) "скол" ["Кат"]
        (some (ClassifyResult.mk "Кат" 0)) = ("Кат", 0) := by
  have h := claim_C9 [LLMClient.RespItem.mk (some "Кат")] 1 (fun _ _ => 0)
    (fun _ _ => 0) "скол" ["Кат"]
  exact ⟨h.1, h.2 0 (ClassifyResult.mk "Кат" 0) (by decide) (by decide)⟩

/-- C10: a comment containing one of the no-defects phrases anywhere as a
substring — case-insensitively, even surrounded by genuine defect text — is
treated as empty by `split_batch`: it yields `[]`, writes nothing to the
cache, and the capability is not called. -/
theorem claim_C10 (llm : List String → List SplitResult)
    (cache : List (String × List String)) (a b : String) :
    SplitService.split_batch llm cache [a ++ "нет замечаний" ++ b] =
      ([some []], cache, []) ∧
    SplitService.split_batch llm cache [a ++ "без замечаний" ++ b] =
      ([some []], cache, []) ∧
    SplitService.split_batch llm cache [a ++ "замечания отсутствуют" ++ b] =
      ([some []], cache, []) ∧
    SplitService.split_batch llm cache [a ++ "НЕТ ЗАМЕЧАНИЙ" ++ b] =
      ([some []], cache, []) :=
  ⟨SplitService.split_batch_single_empty llm cache _
      (SplitService.is_empty_comment_substring a b _ (Or.inl rfl)),
    SplitService.split_batch_single_empty llm cache _
      (SplitService.is_empty_comment_substring a b _ (Or.inr (Or.inl rfl))),
    SplitService.split_batch_single_empty llm cache _
      (SplitService.is_empty_comment_substring a b _ (Or.inr (Or.inr (Or.inl rfl)))),
    SplitService.split_batch_single_empty llm cache _
      (SplitService.is_empty_comment_substring a b _ (Or.inr (Or.inr (Or.inr rfl))))⟩
